import Mathlib

/-!
Verification of the Drive ingestion pipeline and related helpers of the
IsoDocument repository (server/google-drive.ts, server/google-drive-api.ts,
server/secure-links.ts, server/mongo-storage.ts).

Pure functions of the source are embedded as executable Lean functions on
`List Char` / `String`; the Mongo-backed repository is embedded as explicit
state passing over a `Store` value; the asynchronous sync loop is embedded as
a fold that also records an event trace.
-/

namespace IsoDoc

/- ───────────────────────── basic character classes ───────────────────────── -/

/-- Character class `[\d.]`, the characters a hierarchical-path prefix is made of. -/
def digitDot (c : Char) : Bool := c.isDigit || c == '.'

/-- Model of the regex Unicode property `\p{L}` (with the `u` flag): ASCII
letters plus the Latin-1 Supplement / Latin Extended letter ranges.  The full
Unicode table is not reproduced; every theorem below either quantifies over
this predicate itself or uses Latin-script inputs, so the extension of the
class at more exotic code points is never load-bearing. -/
def isUnicodeLetter (c : Char) : Bool :=
  c.isAlpha || (0xC0 ≤ c.toNat && c.toNat ≤ 0x24F && c.toNat != 0xD7 && c.toNat != 0xF7)

/-- Model of `\p{N}` restricted to the decimal digits (same caveat as
`isUnicodeLetter`). -/
def isUnicodeNumber (c : Char) : Bool := c.isDigit

/-- The title segment class of `fileNamePattern`:
`[\p{L}\p{N} .,'’()-]`.  `Char.ofNat 39` is the ASCII apostrophe. -/
def titleChar (c : Char) : Bool :=
  isUnicodeLetter c || isUnicodeNumber c || c == ' ' || c == '.' || c == ',' ||
    c == Char.ofNat 39 || c == '’' || c == '(' || c == ')' || c == '-'

/-- The regex class `\w` (ASCII, as in JavaScript even under the `u` flag). -/
def wordChar (c : Char) : Bool := c.isAlphanum || c == '_'

/-- Recogniser for the path language `\d+(\.\d+)*`.  The boolean argument is
true when the automaton still needs at least one digit in the current run. -/
def pathLangAux : Bool → List Char → Bool
  | needD, [] => !needD
  | needD, c :: cs =>
    if c.isDigit then pathLangAux false cs
    else if c == '.' then (if needD then false else pathLangAux true cs)
    else false

/-- Membership in the dotted-integer-path language `\d+(\.\d+)*`. -/
def isPathLang (cs : List Char) : Bool := pathLangAux true cs

/-- Shape check for the date group `[0-9]{4}-[0-9]{2}-[0-9]{2}`. -/
def isDateShape : List Char → Bool
  | [a, b, c, d, e, f, g, h, i, j] =>
    a.isDigit && b.isDigit && c.isDigit && d.isDigit && e == '-' &&
      f.isDigit && g.isDigit && h == '-' && i.isDigit && j.isDigit
  | _ => false

/- ───────────────────────── the filename pattern ─────────────────────────

Source (server/google-drive.ts):

  const fileNamePattern =
    /^(\d+(?:\.\d+)*)_([\p{L}\p{N} .,'’()-]+?)_Rev\.(\d+)_([0-9]{4}-[0-9]{2}-[0-9]{2})\.(\w+)$/u;

The pattern is anchored at both ends.  Because the title class does not
contain the separator character, the lazy title group always ends at the
first subsequent underscore, every other group boundary is forced by the
adjacent literal, and the whole match is deterministic; `matchFileName`
below computes it directly. -/

/-- Result of a successful `fileNamePattern` match: the five capture groups. -/
structure ParsedName where
  isoPath : List Char
  title : List Char
  revDigits : List Char
  date : List Char
  ext : List Char
deriving DecidableEq, Repr

/-- Deterministic computation of the anchored match of `fileNamePattern`. -/
def matchFileName (cs : List Char) : Option ParsedName :=
  let p := cs.takeWhile digitDot
  let r1 := cs.dropWhile digitDot
  if isPathLang p then
    match r1 with
    | '_' :: r2 =>
      let t := r2.takeWhile titleChar
      let r3 := r2.dropWhile titleChar
      if t.isEmpty then none
      else
        match r3 with
        | '_' :: 'R' :: 'e' :: 'v' :: '.' :: r4 =>
          let k := r4.takeWhile Char.isDigit
          let r5 := r4.dropWhile Char.isDigit
          if k.isEmpty then none
          else
            match r5 with
            | '_' :: rest =>
              let d := rest.take 10
              let r6 := rest.drop 10
              if isDateShape d then
                match r6 with
                | '.' :: e => if !e.isEmpty && e.all wordChar then some ⟨p, t, k, d, e⟩ else none
                | _ => none
              else none
            | _ => none
        | _ => none
    | _ => none
  else none

/-- JavaScript `String.prototype.trim` restricted to the only whitespace
character the title class can contain (the plain space). -/
def trimSpaces (cs : List Char) : List Char :=
  ((cs.dropWhile (fun c => c == ' ')).reverse.dropWhile (fun c => c == ' ')).reverse

/-- The literal `"Rev."` as a character list. -/
def revMarker : List Char := ['R', 'e', 'v', '.']

/-- `parseISOPath` of server/google-drive.ts. -/
def parseISOPath (s : String) : Option String :=
  (matchFileName s.toList).map (fun r => String.mk r.isoPath)

/-- `parseTitle` of server/google-drive.ts (group 2, trimmed). -/
def parseTitle (s : String) : Option String :=
  (matchFileName s.toList).map (fun r => String.mk (trimSpaces r.title))

/-- `parseRevision` of server/google-drive.ts (the string `Rev.` ++ group 3). -/
def parseRevision (s : String) : Option String :=
  (matchFileName s.toList).map (fun r => String.mk (revMarker ++ r.revDigits))

/-- `parseDate` of server/google-drive.ts (group 4 verbatim). -/
def parseDate (s : String) : Option String :=
  (matchFileName s.toList).map (fun r => String.mk r.date)

/-- `parseFileType` of server/google-drive.ts (group 5, lowercased). -/
def parseFileType (s : String) : Option String :=
  (matchFileName s.toList).map (fun r => String.mk (r.ext.map Char.toLower))

/-- Reassemble a filename from the five segments, following the shape of
`fileNamePattern`. -/
def mkFileName (p t k d e : List Char) : List Char :=
  p ++ '_' :: (t ++ '_' :: (revMarker ++ (k ++ '_' :: (d ++ '.' :: e))))

/-- Does `needle` occur as a contiguous run inside `hay`?  (Model of
`String.prototype.includes` / regex literal search.) -/
def containsSeq (needle : List Char) : List Char → Bool
  | [] => needle.isEmpty
  | c :: cs => needle.isPrefixOf (c :: cs) || containsSeq needle cs

/-- Does some 10-character window of the input have the date shape? -/
def containsDateShape : List Char → Bool
  | [] => false
  | c :: cs => isDateShape ((c :: cs).take 10) || containsDateShape cs

/- ───────────────────────── folder-id extraction ─────────────────────────

Source (server/google-drive.ts, `extractFolderIdFromUrl`): the input is first
rejected when empty/blank, then matched against three unanchored URL patterns
(first match wins, searching left to right), then against the anchored bare
identifier pattern `^[a-zA-Z0-9_-]+$`.  The optional trailing groups
`(?:[\?#][^\s]*)?` and `(?:&[^\s]*)?` of the source patterns can never cause
a match to fail or change the captured group (nothing follows them in the
pattern), so they are dropped from the computation. -/

/-- The identifier class `[a-zA-Z0-9_-]`. -/
def idChar (c : Char) : Bool := c.isAlpha || c.isDigit || c == '_' || c == '-'

/-- Match a literal at the head of the input, returning the remainder. -/
def stripSeq : List Char → List Char → Option (List Char)
  | [], cs => some cs
  | _ :: _, [] => none
  | l :: ls, c :: cs => if l == c then stripSeq ls cs else none

/-- The common host prefix of all three URL patterns. -/
def driveHost : List Char := String.toList ("https://drive.google.com")

/-- Match, at the current position, the pattern
`https:\/\/drive\.google\.com\/drive\/(?:u\/\d+\/)?<seg>([a-zA-Z0-9_-]+)`
where `seg` is `folders/` or `my-drive/`; returns the captured group. -/
def matchDrivePathAt (seg : List Char) (cs : List Char) : Option (List Char) :=
  match stripSeq (String.toList ("https://drive.google.com/drive/")) cs with
  | none => none
  | some r =>
    let withU : Option (List Char) :=
      match stripSeq (String.toList ("u/")) r with
      | none => none
      | some ru =>
        match ru.takeWhile Char.isDigit, ru.dropWhile Char.isDigit with
        | [], _ => none
        | _ :: _, '/' :: rest => some rest
        | _ :: _, _ => none
    let base : Option (List Char) :=
      match withU with
      | some rr =>
        match stripSeq seg rr with
        | some q => some q
        | none => stripSeq seg r
      | none => stripSeq seg r
    match base with
    | none => none
    | some q =>
      match q.takeWhile idChar with
      | [] => none
      | ids => some ids

/-- Match, at the current position, the pattern
`https:\/\/drive\.google\.com\/open\?id=([a-zA-Z0-9_-]+)`. -/
def matchOpenIdAt (cs : List Char) : Option (List Char) :=
  match stripSeq (String.toList ("https://drive.google.com/open?id=")) cs with
  | none => none
  | some q =>
    match q.takeWhile idChar with
    | [] => none
    | ids => some ids

/-- Unanchored leftmost-position search, the semantics of
`String.prototype.match` with an unanchored pattern. -/
def searchFrom (m : List Char → Option (List Char)) : List Char → Option (List Char)
  | [] => m []
  | c :: cs =>
    match m (c :: cs) with
    | some r => some r
    | none => searchFrom m cs

/-- `extractFolderIdFromUrl` of server/google-drive.ts. -/
def extractFolderIdFromUrl (s : String) : Option String :=
  if s.toList.all Char.isWhitespace then none
  else
    match searchFrom (matchDrivePathAt (String.toList ("folders/"))) s.toList with
    | some ids => some (String.mk ids)
    | none =>
      match searchFrom (matchDrivePathAt (String.toList ("my-drive/"))) s.toList with
      | some ids => some (String.mk ids)
      | none =>
        match searchFrom matchOpenIdAt s.toList with
        | some ids => some (String.mk ids)
        | none =>
          if !s.toList.isEmpty && s.toList.all idChar then some s else none

/- ───────────────────── decimal numbers as strings ───────────────────── -/

/-- The character of a decimal digit (values above nine never arise). -/
def digitChar : Nat → Char
  | 0 => '0'
  | 1 => '1'
  | 2 => '2'
  | 3 => '3'
  | 4 => '4'
  | 5 => '5'
  | 6 => '6'
  | 7 => '7'
  | 8 => '8'
  | _ => '9'

/-- Decimal digits of a natural number, most significant first.  Fuel-driven
so that the definition is structural; the wrapper supplies ample fuel. -/
def natDigitsAux : Nat → Nat → List Char
  | 0, _ => []
  | fuel + 1, n =>
    if n < 10 then [digitChar n] else natDigitsAux fuel (n / 10) ++ [digitChar (n % 10)]

/-- Decimal representation of a natural number (the JavaScript number-to-string
conversion for nonnegative integers). -/
def natDigits (n : Nat) : List Char := natDigitsAux (n + 1) n

/-- Numeric value of a digit character. -/
def digitVal (c : Char) : Nat := c.toNat - 48

/-- Value of a digit run. -/
def digitsVal (ds : List Char) : Nat := ds.foldl (fun a c => a * 10 + digitVal c) 0

/-- JavaScript `parseInt(s, 10)` restricted to what the pipeline exercises: an
optional sign followed by leading decimal digits, trailing garbage ignored, no
leading digit giving `NaN` (modelled as `none`).  The whitespace-skipping of
the real `parseInt` is not modelled; no call site in the pipeline passes a
string with leading whitespace. -/
def parseIntJS (cs : List Char) : Option Int :=
  match cs with
  | [] => none
  | c :: rest =>
    if c == '-' then
      match rest.takeWhile Char.isDigit with
      | [] => none
      | ds => some (-(digitsVal ds : Int))
    else if c == '+' then
      match rest.takeWhile Char.isDigit with
      | [] => none
      | ds => some ((digitsVal ds : Int))
    else
      match (c :: rest).takeWhile Char.isDigit with
      | [] => none
      | ds => some ((digitsVal ds : Int))

/-- JavaScript `String.prototype.replace` with a plain-string pattern and empty
replacement: removes the first occurrence of `pat`, if any. -/
def removeFirstSeq (pat : List Char) : List Char → List Char
  | [] => []
  | c :: cs =>
    if pat.isPrefixOf (c :: cs) then (c :: cs).drop pat.length
    else c :: removeFirstSeq pat cs

/-- The revision number used by the Obsolescence Resolver:
`parseInt(revision.replace("Rev.", ""), 10)` of server/google-drive.ts. -/
def revNumOf (s : String) : Option Int := parseIntJS (removeFirstSeq revMarker s.toList)

/-- The canonical revision string `Rev.<k>` produced by `parseRevision`. -/
def mkRev (k : Nat) : String := String.mk (revMarker ++ natDigits k)

/-- The strictly-lower test of `findObsoleteRevisions`: JavaScript `<` on two
`parseInt` results, false whenever either side is NaN. -/
def revLtB : Option Int → Option Int → Bool
  | some a, some b => decide (a < b)
  | _, _ => false

/- ───────────────────────── alert classifier ─────────────────────────

Source (server/google-drive.ts, `analyzeExcelContent`).  The workbook loading
through the XLSX library is the external spreadsheet-reader collaborator; the
embedding starts from the scanned cell grid.  A sheet is given as the list of
the six scanned cells A1, B1, C1, A2, B2, C2 in scan order, and `Date.now()`
is the `now` parameter, in epoch milliseconds. -/

/-- The tri-state alert classification. -/
inductive Alert
  | none
  | warning
  | expired
deriving DecidableEq, Repr

/-- One scanned cell: absent (or `v == null`), a native date cell
(`t === "d"` with a `Date` value, kept as epoch milliseconds), a numeric cell
(`t === "n"` with its Excel serial), or any other value.  Every present cell
also carries its string form `String(cell.v)`, used by the string-date branch
and by the glyph override scan. -/
inductive Cell
  | empty
  | dateCell (ms : Int) (text : List Char)
  | numCell (serial : Nat) (text : List Char)
  | strCell (text : List Char)
deriving DecidableEq, Repr

/-- The string form of a present cell. -/
def cellText : Cell → Option (List Char)
  | Cell.empty => Option.none
  | Cell.dateCell _ txt => some txt
  | Cell.numCell _ txt => some txt
  | Cell.strCell txt => some txt

/-- Model of `XLSX.SSF.parse_date_code` composed with `Date.UTC(y, m-1, d)`
for the 1900 date system: serial `s ≥ 1` denotes the UTC midnight
`(s - 25569) * 86400000` ms relative to the Unix epoch; serial `0` has a zero
day component, which the source treats as falsy and skips.  The 1900
leap-year quirk of the underlying table is absorbed into this affine model;
fractional serials do not arise in this development. -/
def serialToMs (s : Nat) : Option Int :=
  if s = 0 then Option.none else some (((s : Int) - 25569) * 86400000)

/-- Days since the Unix epoch of a civil date (Gregorian, proleptic), months
numbered 1 to 12 and the day unconstrained (excess days roll over). -/
def daysFromCivil (y m d : Int) : Int :=
  let y2 := if m ≤ 2 then y - 1 else y
  let era := Int.fdiv y2 400
  let yoe := y2 - era * 400
  let mp := Int.emod (m + 9) 12
  let doy := Int.fdiv (153 * mp + 2) 5 + (d - 1)
  let doe := yoe * 365 + Int.fdiv yoe 4 - Int.fdiv yoe 100 + doy
  era * 146097 + doe - 719468

/-- Model of `Date.UTC(y, m0, d)` (zero-based month, rolling over out-of-range
months and days as JavaScript does), in epoch milliseconds. -/
def dateUTC (y m0 d : Int) : Int :=
  daysFromCivil (y + Int.fdiv m0 12) (Int.emod m0 12 + 1) d * 86400000

/-- Two leading digits. -/
def digit2? : List Char → Option (Nat × List Char)
  | a :: b :: rest =>
    if a.isDigit && b.isDigit then some (digitVal a * 10 + digitVal b, rest) else Option.none
  | _ => Option.none

/-- One leading digit. -/
def digit1? : List Char → Option (Nat × List Char)
  | a :: rest => if a.isDigit then some (digitVal a, rest) else Option.none
  | _ => Option.none

/-- A date separator `[\/\-]`. -/
def dateSep? : List Char → Option (List Char)
  | c :: rest => if c == '/' || c == '-' then some rest else Option.none
  | _ => Option.none

/-- Four leading digits. -/
def digit4? : List Char → Option (Nat × List Char)
  | a :: b :: c :: d :: rest =>
    if a.isDigit && b.isDigit && c.isDigit && d.isDigit then
      some (((digitVal a * 10 + digitVal b) * 10 + digitVal c) * 10 + digitVal d, rest)
    else Option.none
  | _ => Option.none

/-- Month-and-year part of the pattern `(\d{1,2})[\/\-](\d{1,2})[\/\-](\d{4})`
after the day has been consumed: greedy two-digit month first, one digit on
backtracking, as the regex engine does. -/
def matchTailDMY (dd : Nat) (rest : List Char) : Option (Nat × Nat × Nat) :=
  match dateSep? rest with
  | Option.none => Option.none
  | some r1 =>
    let tailFrom : Nat → List Char → Option (Nat × Nat × Nat) := fun mm r2 =>
      match dateSep? r2 with
      | Option.none => Option.none
      | some r3 =>
        match digit4? r3 with
        | Option.none => Option.none
        | some (yyyy, _) => some (dd, mm, yyyy)
    match digit2? r1 with
    | some (mm, r2) =>
      match tailFrom mm r2 with
      | some res => some res
      | Option.none =>
        match digit1? r1 with
        | some (mm1, r2b) => tailFrom mm1 r2b
        | Option.none => Option.none
    | Option.none =>
      match digit1? r1 with
      | some (mm1, r2b) => tailFrom mm1 r2b
      | Option.none => Option.none

/-- Match of the date pattern at the current position (greedy two-digit day
first, then backtrack to one digit). -/
def matchDMYAt (cs : List Char) : Option (Nat × Nat × Nat) :=
  match digit2? cs with
  | some (dd, rest) =>
    match matchTailDMY dd rest with
    | some res => some res
    | Option.none =>
      match digit1? cs with
      | some (dd1, rest1) => matchTailDMY dd1 rest1
      | Option.none => Option.none
  | Option.none =>
    match digit1? cs with
    | some (dd1, rest1) => matchTailDMY dd1 rest1
    | Option.none => Option.none

/-- Leftmost match of `(\d{1,2})[\/\-](\d{1,2})[\/\-](\d{4})`. -/
def searchDMY : List Char → Option (Nat × Nat × Nat)
  | [] => matchDMYAt []
  | c :: cs =>
    match matchDMYAt (c :: cs) with
    | some res => some res
    | Option.none => searchDMY cs

/-- JavaScript `String.prototype.trim`. -/
def trimWs (cs : List Char) : List Char :=
  ((cs.dropWhile Char.isWhitespace).reverse.dropWhile Char.isWhitespace).reverse

/-- The date-extraction loop of `analyzeExcelContent`: first usable cell wins;
a native date cell yields its value, a numeric cell its serial date (falling
through to the string branch when the serial is unusable), while any present
cell may yield a date-shaped substring `DD/MM/YYYY` or `DD-MM-YYYY`. -/
def findExpiry : List Cell → Option Int
  | [] => Option.none
  | Cell.empty :: rest => findExpiry rest
  | Cell.dateCell ms _ :: _ => some ms
  | Cell.numCell s txt :: rest =>
    (match serialToMs s with
     | some ms => some ms
     | Option.none =>
       match searchDMY (trimWs txt) with
       | some (dd, mm, yyyy) => some (dateUTC ((yyyy : Int)) ((mm : Int) - 1) ((dd : Int)))
       | Option.none => findExpiry rest)
  | Cell.strCell txt :: rest =>
    (match searchDMY (trimWs txt) with
     | some (dd, mm, yyyy) => some (dateUTC ((yyyy : Int)) ((mm : Int) - 1) ((dd : Int)))
     | Option.none => findExpiry rest)

/-- The stop glyph (red circle). -/
def stopGlyph : List Char := ['🔴']

/-- The warning glyph (warning sign followed by the emoji variation
selector, exactly the two code points of the source literal). -/
def warnGlyph : List Char := ['⚠', Char.ofNat 0xFE0F]

/-- The override loop of `analyzeExcelContent`: first cell containing a glyph
wins, the stop glyph checked before the warning glyph within a cell. -/
def glyphScan : List Cell → Option Alert
  | [] => Option.none
  | c :: rest =>
    match cellText c with
    | Option.none => glyphScan rest
    | some txt =>
      if containsSeq stopGlyph txt then some Alert.expired
      else if containsSeq warnGlyph txt then some Alert.warning
      else glyphScan rest

/-- Does some scanned cell contain the glyph in its string form? -/
def hasGlyphB (g : List Char) (cells : List Cell) : Bool :=
  cells.any (fun c =>
    match cellText c with
    | some txt => containsSeq g txt
    | Option.none => false)

/-- The date-threshold classification of `analyzeExcelContent`:
`Math.floor((expiry - Date.now()) / 86400000)` compared against 0 and 30. -/
def dateStatus (now : Int) : Option Int → Alert
  | Option.none => Alert.none
  | some e =>
    let diffDays := Int.fdiv (e - now) 86400000
    if diffDays < 0 then Alert.expired
    else if diffDays ≤ 30 then Alert.warning
    else Alert.none

/-- The cell-level core of `analyzeExcelContent`: extract an expiry date,
classify it against `now`, then let a glyph override the computed status. -/
def analyzeCells (now : Int) (cells : List Cell) : Alert × Option Int :=
  let expiry := findExpiry cells
  let status :=
    match glyphScan cells with
    | some a => a
    | Option.none => dateStatus now expiry
  (status, expiry)

/-- `analyzeExcelContent` of server/google-drive.ts: files that are not
`.xlsx` and workbooks without a first sheet yield `none`/no date; otherwise
the scanned cells decide. -/
def analyzeExcelContent (now : Int) (isXlsx : Bool) (sheet : Option (List Cell)) :
    Alert × Option Int :=
  if !isXlsx then (Alert.none, Option.none)
  else
    match sheet with
    | Option.none => (Alert.none, Option.none)
    | some cells => analyzeCells now cells

/- ───────────────────── the document repository ─────────────────────

Source (server/mongo-storage.ts): the Mongo-backed repository is embedded as
explicit state passing over a `Store`.  Documents keep exactly the fields the
ingestion pipeline reads or writes through these methods; lists are kept in
insertion order, matching the natural order Mongo returns for these
unsorted queries. -/

/-- A stored Document, restricted to the fields the sync pipeline and the
Obsolescence Resolver read or write. -/
structure Doc where
  legacyId : Nat
  path : String
  title : String
  revision : String
  isObsolete : Bool
deriving DecidableEq, Repr

/-- An audit Log entry as written by `markObsoleteDocuments` (acting user,
action tag, target document). -/
structure LogEntry where
  userId : Nat
  action : String
  documentId : Nat
deriving DecidableEq, Repr

/-- The repository state: documents and logs in insertion order plus the
auto-increment counter that `getNextSequence("documentId")` draws from.
Log ids are never read anywhere, so their counter is not modelled. -/
structure Store where
  docs : List Doc
  logs : List LogEntry
  nextId : Nat
deriving DecidableEq, Repr

def emptyStore : Store := ⟨[], [], 0⟩

/-- `mongoStorage.getDocumentsByPathAndTitle`: `find({ path, title })`. -/
def getDocumentsByPathAndTitle (st : Store) (p t : String) : List Doc :=
  st.docs.filter (fun d => d.path == p && d.title == t)

/-- `mongoStorage.getDocumentByPathAndTitleAndRevision`:
`findOne({ path, title, revision })`. -/
def getDocumentByPathAndTitleAndRevision (st : Store) (p t rev : String) : Option Doc :=
  st.docs.find? (fun d => d.path == p && d.title == t && d.revision == rev)

/-- `mongoStorage.createDocument`: draws the next sequence id and saves a new,
non-obsolete document. -/
def createDocument (st : Store) (p t rev : String) : Store :=
  { st with docs := st.docs ++ [⟨st.nextId, p, t, rev, false⟩], nextId := st.nextId + 1 }

/-- `isObsolete := true` update of a document. -/
def setObsolete (d : Doc) : Doc := { d with isObsolete := true }

/-- `findOneAndUpdate({ legacyId: id }, { isObsolete: true })`: update the
first document carrying the id. -/
def markFirstObsolete : List Doc → Nat → List Doc
  | [], _ => []
  | d :: ds, i => if d.legacyId == i then setObsolete d :: ds else d :: markFirstObsolete ds i

/-- `mongoStorage.markDocumentObsolete`. -/
def markDocumentObsolete (st : Store) (i : Nat) : Store :=
  { st with docs := markFirstObsolete st.docs i }

/-- `mongoStorage.createLog` (only the fields the resolver writes are kept). -/
def createLog (st : Store) (e : LogEntry) : Store := { st with logs := st.logs ++ [e] }

/-- `findObsoleteRevisions` of server/google-drive.ts: the stored documents
sharing the pair whose parsed revision number is strictly lower than the
current one.  There is no condition on `isObsolete`. -/
def findObsoleteRevisions (st : Store) (p t rev : String) : List Doc :=
  (getDocumentsByPathAndTitle st p t).filter
    (fun d => revLtB (revNumOf d.revision) (revNumOf rev))

/-- `markObsoleteDocuments` of server/google-drive.ts: mark each document and
append one `"revision"` log entry per document. -/
def markObsoleteDocuments (st : Store) (ds : List Doc) (userId : Nat) : Store :=
  ds.foldl (fun acc d =>
    createLog (markDocumentObsolete acc d.legacyId) ⟨userId, ("revision"), d.legacyId⟩) st

/-- Steps 4.3 and 4.4 of the `syncWithGoogleDrive` file loop for one parsed
file: duplicate check against the `(path, title, revision)` triple, insert,
then the obsolescence pass (which runs on the store that already holds the
new document). -/
def ingest (st : Store) (p t rev : String) (userId : Nat) : Store :=
  match getDocumentByPathAndTitleAndRevision st p t rev with
  | some _ => st
  | none =>
    let st1 := createDocument st p t rev
    markObsoleteDocuments st1 (findObsoleteRevisions st1 p t rev) userId

/-- The repository effect of one sync pass over a listed set of file names:
files rejected by the Filename Parser are skipped, parsed files are ingested
in listing order. -/
def syncPassIngest (st : Store) (names : List String) (userId : Nat) : Store :=
  names.foldl (fun acc n =>
    match matchFileName n.toList with
    | none => acc
    | some r => ingest acc (String.mk r.isoPath) (String.mk (trimSpaces r.title))
        (String.mk (revMarker ++ r.revDigits)) userId) st

/-- The non-obsolete documents stored for a pair. -/
def activeFor (st : Store) (p t : String) : List Doc :=
  st.docs.filter (fun d => d.path == p && d.title == t && !d.isObsolete)

/-- Presence of a (path, title, revision) triple among the stored documents. -/
def hasTriple (st : Store) (p t rev : String) : Prop :=
  ∃ d ∈ st.docs, d.path = p ∧ d.title = t ∧ d.revision = rev

/-- An ingestion sequence: (path, title, revision number) per processed file. -/
def runIngest (seq : List (String × String × Nat)) (uid : Nat) : Store :=
  seq.foldl (fun acc x => ingest acc x.1 x.2.1 (mkRev x.2.2) uid) emptyStore

/-- The revision numbers ingested for a pair, in arrival order. -/
def ingestedKs (seq : List (String × String × Nat)) (p t : String) : List Nat :=
  (seq.filter (fun x => x.1 == p && x.2.1 == t)).map (fun x => x.2.2)

/-- Arrival order in which no revision for a pair arrives after a strictly
higher one: every later ingestion for the same pair carries a
greater-or-equal revision number. -/
def PairSorted (seq : List (String × String × Nat)) : Prop :=
  List.Pairwise (fun a b => a.1 = b.1 → a.2.1 = b.2.1 → a.2.2 ≤ b.2.2) seq

/-- Record one more ingested revision number for a pair. -/
def addK (ksOf : String → String → List Nat) (p t : String) (k : Nat) :
    String → String → List Nat :=
  fun p' t' => if p' = p ∧ t' = t then ksOf p' t' ++ [k] else ksOf p' t'

/-- The store invariant maintained by in-order ingestion, relative to the
revision numbers ingested so far for each pair: every stored document carries
a canonical ingested revision, ingested revisions and stored triples
correspond, the non-obsolete documents of a pair are at most one and carry
the maximal ingested revision, and document ids are distinct and bounded by
the sequence counter. -/
def StoreInv (st : Store) (ksOf : String → String → List Nat) : Prop :=
  (∀ d ∈ st.docs, ∃ k, d.revision = mkRev k ∧ k ∈ ksOf d.path d.title) ∧
  (∀ p t k, k ∈ ksOf p t ↔ ∃ d ∈ st.docs, d.path = p ∧ d.title = t ∧ d.revision = mkRev k) ∧
  (∀ p t, (activeFor st p t).length ≤ 1 ∧
    (∀ d ∈ activeFor st p t, ∃ k, d.revision = mkRev k ∧ k ∈ ksOf p t ∧
      ∀ q ∈ ksOf p t, q ≤ k) ∧
    (ksOf p t ≠ [] → (activeFor st p t).length = 1)) ∧
  ((st.docs.map Doc.legacyId).Nodup ∧ ∀ d ∈ st.docs, d.legacyId < st.nextId)

/- ───────────────────────── secure links ─────────────────────────

Source (server/secure-links.ts).  `generateSecureLink` stamps
`expires = Date.now() + expiryMs`, serialises the payload
`{documentId, userId, action, expires}` (JSON then base64), signs
`` `${encodedData}.${expires}` `` with HMAC-SHA256 under the process secret,
and returns the three URL path segments.  `verifySecureLink` first parses the
`expires` segment and rejects expired (or unparseable) links, then recomputes
the signature over the raw segments and rejects mismatches, and only then
decodes the payload, returning its fields with `expires` taken from the
parsed path segment.

The HMAC is taken as a parameter `hmac : List Char → List Char → List Char`
standing for `createHmac("sha256", key).update(msg).digest("base64url")`;
the code relies only on it being a deterministic function of key and
message, which any instantiation provides.  The composite
`Buffer.from(JSON.stringify(data)).toString("base64")` and its inverse are
embedded as a concrete injective serialisation `encodePayload` /
`decodePayload` with the fields in source order (documentId, userId, action,
expires), `null` encoded as the word `null` and numbers in decimal; the
verification logic depends only on the round-trip.  The audit-log side
effect of `generateSecureLink` is outside the returned value and not
modelled here. -/

structure TokenData where
  documentId : Option Nat
  userId : Nat
  action : List Char
  expires : Nat
deriving DecidableEq, Repr

/-- The `documentId` field: `null` or a decimal number. -/
def encodeDocId : Option Nat → List Char
  | Option.none => String.toList ("null")
  | some n => natDigits n

/-- The serialised payload, fields in the source's JSON order. -/
def encodePayload (d : TokenData) : List Char :=
  encodeDocId d.documentId ++
    ',' :: (natDigits d.userId ++ ',' :: (d.action ++ ',' :: natDigits d.expires))

/-- Everything but a field separator. -/
def notComma (c : Char) : Bool := !(c == ',')

/-- Split at the first separator, if any. -/
def splitComma (cs : List Char) : Option (List Char × List Char) :=
  match cs.dropWhile notComma with
  | [] => Option.none
  | _ :: r => some (cs.takeWhile notComma, r)

/-- Parse a nonempty decimal field. -/
def decodeNat (cs : List Char) : Option Nat :=
  if cs ≠ [] ∧ cs.all Char.isDigit = true then some (digitsVal cs) else Option.none

/-- Parse the `documentId` field. -/
def decodeDocId (cs : List Char) : Option (Option Nat) :=
  if cs = String.toList ("null") then some Option.none
  else (decodeNat cs).map some

/-- Deserialise a payload: the first two separators delimit `documentId` and
`userId`, the last one delimits `expires`, and whatever stands between is the
`action` string. -/
def decodePayload (cs : List Char) : Option TokenData :=
  match splitComma cs with
  | Option.none => Option.none
  | some (f1, r1) =>
    match splitComma r1 with
    | Option.none => Option.none
    | some (f2, rest) =>
      match splitComma rest.reverse with
      | Option.none => Option.none
      | some (dsRev, actRev) =>
        match decodeDocId f1, decodeNat f2, decodeNat dsRev.reverse with
        | some docId, some uid, some exp =>
          some ⟨docId, uid, actRev.reverse, exp⟩
        | _, _, _ => Option.none

/-- The three path segments of the returned URL
`/api/secure/(encodedData)/(expires)/(sig)`. -/
structure SecureURL where
  encodedData : List Char
  expiresSeg : List Char
  signature : List Char
deriving DecidableEq, Repr

/-- `generateSecureLink` of server/secure-links.ts: stamp the expiry instant,
serialise the payload, sign `` `${encodedData}.${expires}` ``. -/
def generateSecureLink (hmac : List Char → List Char → List Char)
    (secret : List Char) (now : Nat) (documentId : Option Nat) (userId : Nat)
    (action : List Char) (expiryMs : Nat) : SecureURL :=
  let expires := now + expiryMs
  let encodedData := encodePayload ⟨documentId, userId, action, expires⟩
  ⟨encodedData, natDigits expires, hmac secret (encodedData ++ '.' :: natDigits expires)⟩

/-- `verifySecureLink` of server/secure-links.ts: the expiry test comes first
(a link past its instant is rejected before the signature is even computed),
then the signature comparison over the raw segments, then the decode; the
returned `expires` is the parsed path segment, not the payload field. -/
def verifySecureLink (hmac : List Char → List Char → List Char)
    (secret : List Char) (now : Nat)
    (encodedData expiresSeg sigSeg : List Char) : Option TokenData :=
  match parseIntJS expiresSeg with
  | Option.none => Option.none
  | some expiryTime =>
    if (now : Int) > expiryTime then Option.none
    else if sigSeg ≠ hmac secret (encodedData ++ '.' :: expiresSeg) then Option.none
    else
      match decodePayload encodedData with
      | Option.none => Option.none
      | some d => some ⟨d.documentId, d.userId, d.action, expiryTime.toNat⟩

/- ───────────────────── remote drive listing ─────────────────────

Source (server/google-drive-api.ts, `googleDriveListFiles`, the recursive
variant).  The remote tree is a function `drive` from a folder id to the
pages its listing returns (`pageSize` 1000 with `nextPageToken` chaining);
the loop keeps a `pending` array of folder ids seeded with the root,
repeatedly takes `pending.pop()` — the LAST element of the array — and walks
the current folder's pages, pushing subfolder ids onto `pending` and
collecting non-folder entries into `files`.  The unbounded `while` is given
explicit fuel, `none` standing for running out of it; remote calls are total
here since a network failure rejects the whole promise. -/

def folderMime : String := "application/vnd.google-apps.folder"

structure GFile where
  id : Nat
  name : String
  mimeType : String
deriving DecidableEq, Repr

/-- `pending.pop()`: split a nonempty array into its initial part and its
last element. -/
def splitLast : List Nat → Option (List Nat × Nat)
  | [] => Option.none
  | [x] => some ([], x)
  | x :: y :: rest =>
    match splitLast (y :: rest) with
    | some (init, last) => some (x :: init, last)
    | Option.none => Option.none

/-- The paginated `do … while (pageToken)` body for one folder: each page
appends its subfolder ids to `pending` and its real files to `files`, in
page order. -/
def pageLoop : List (List GFile) → List Nat → List GFile → List Nat × List GFile
  | [], pending, files => (pending, files)
  | page :: rest, pending, files =>
    pageLoop rest
      (pending ++ (page.filter (fun f => f.mimeType == folderMime)).map GFile.id)
      (files ++ page.filter (fun f => !(f.mimeType == folderMime)))

/-- The outer `while (pending.length)` loop, popping the LAST pending id. -/
def listLoop (drive : Nat → List (List GFile)) :
    Nat → List Nat → List GFile → Option (List GFile)
  | _, [], files => some files
  | 0, _ :: _, _ => Option.none
  | fuel + 1, p :: ps, files =>
    match splitLast (p :: ps) with
    | Option.none => Option.none
    | some (rest, current) =>
      match pageLoop (drive current) rest files with
      | (pending2, files2) => listLoop drive fuel pending2 files2

/-- `googleDriveListFiles` of server/google-drive-api.ts. -/
def googleDriveListFiles (drive : Nat → List (List GFile)) (fuel folderId : Nat) :
    Option (List GFile) := listLoop drive fuel [folderId] []

/-- Spec-modelled variant (after the source comment `coda BFS` and the
spec's breadth-first wording): identical except that the pending queue is
consumed from the FRONT, giving genuine breadth-first order.  Kept only for
comparison with `listLoop`. -/
def bfsLoop (drive : Nat → List (List GFile)) :
    Nat → List Nat → List GFile → Option (List GFile)
  | _, [], files => some files
  | 0, _ :: _, _ => Option.none
  | fuel + 1, current :: rest, files =>
    match pageLoop (drive current) rest files with
    | (pending2, files2) => bfsLoop drive fuel pending2 files2

/-- The spec-modelled listing. -/
def bfsListFiles (drive : Nat → List (List GFile)) (fuel folderId : Nat) :
    Option (List GFile) := bfsLoop drive fuel [folderId] []

/-- A concrete three-folder drive: the root holds two subfolders and one
plain file, each subfolder holds one plain file. -/
def driveEx : Nat → List (List GFile)
  | 0 => [[⟨1, ("sub1"), folderMime⟩, ⟨2, ("sub2"), folderMime⟩,
           ⟨3, ("root.txt"), ("text/plain")⟩]]
  | 1 => [[⟨4, ("a.txt"), ("text/plain")⟩]]
  | 2 => [[⟨5, ("b.txt"), ("text/plain")⟩]]
  | _ => []

/-- A non-folder entry reachable from a folder id by recursing into
subfolder entries. -/
inductive ReachFile (drive : Nat → List (List GFile)) : Nat → GFile → Prop
  | here {root : Nat} {f : GFile} : f ∈ (drive root).flatten →
      ¬ f.mimeType = folderMime → ReachFile drive root f
  | step {root : Nat} {g : GFile} {f : GFile} : g ∈ (drive root).flatten →
      g.mimeType = folderMime → ReachFile drive g.id f → ReachFile drive root f

/- ───────────────────── the per-file sync loop ─────────────────────

Source (server/google-drive.ts, `syncWithGoogleDrive`, step 4): a serial
`for` loop over the listed files; each iteration creates a scratch path,
then inside `try` downloads the file, parses it (`continue` when the parser
rejects it), skips duplicates (`continue`), creates the document and marks
obsolete revisions; `catch (fileError)` logs the error and falls through to
the next iteration; `finally` always attempts `fs.promises.unlink(tmpPath)`
(its own rejection swallowed).  How each of these external steps turns out
is an input here: a file is paired with its `FileOutcome`, and the loop's
observable behaviour is flattened into the list of events it performs, in
order. -/

inductive FileOutcome
  | downloadFail
  | parseReject
  | dedupSkip
  | repoFail
  | ok
deriving DecidableEq, Repr

inductive SyncEvent
  | started (fileName : String)
  | errorLogged (fileName : String)
  | documentCreated (fileName : String)
  | unlinkAttempted (fileName : String)
deriving DecidableEq, Repr

/-- One iteration of the loop: what it does between `continue`/`catch` and
the unconditional `finally` cleanup, for each way the external calls can
turn out. -/
def perFile (f : String × FileOutcome) : List SyncEvent :=
  SyncEvent.started f.1 ::
    ((match f.2 with
      | FileOutcome.downloadFail => [SyncEvent.errorLogged f.1]
      | FileOutcome.parseReject => []
      | FileOutcome.dedupSkip => []
      | FileOutcome.repoFail => [SyncEvent.errorLogged f.1]
      | FileOutcome.ok => [SyncEvent.documentCreated f.1]) ++
     [SyncEvent.unlinkAttempted f.1])

/-- The whole serial loop: the iterations' events in file order. -/
def syncTrace : List (String × FileOutcome) → List SyncEvent
  | [] => []
  | f :: rest => perFile f ++ syncTrace rest

/-- Recogniser for cleanup attempts. -/
def isUnlink : SyncEvent → Bool
  | SyncEvent.unlinkAttempted _ => true
  | _ => false

/- ───────────────────────── parser lemmas ───────────────────────── -/

theorem takeWhile_append_of_all (p : Char → Bool) (l : List Char) (x : Char) (r : List Char)
    (h1 : ∀ c ∈ l, p c = true) (h2 : p x = false) :
    (l ++ x :: r).takeWhile p = l := by
  induction l with
  | nil => simp [List.takeWhile, h2]
  | cons a l ih =>
    have ha : p a = true := h1 a (by simp)
    simp only [List.cons_append, List.takeWhile_cons, ha]
    simp [ih (fun c hc => h1 c (by simp [hc]))]

theorem dropWhile_append_of_all (p : Char → Bool) (l : List Char) (x : Char) (r : List Char)
    (h1 : ∀ c ∈ l, p c = true) (h2 : p x = false) :
    (l ++ x :: r).dropWhile p = x :: r := by
  induction l with
  | nil => simp [List.dropWhile, h2]
  | cons a l ih =>
    have ha : p a = true := h1 a (by simp)
    simp only [List.cons_append, List.dropWhile_cons, ha]
    simp [ih (fun c hc => h1 c (by simp [hc]))]

theorem pathLangAux_all {cs : List Char} :
    ∀ {b : Bool}, pathLangAux b cs = true → ∀ c ∈ cs, digitDot c = true := by
  induction cs with
  | nil => intro b _ c hc; cases hc
  | cons a cs ih =>
    intro b h c hc
    rw [pathLangAux] at h
    rcases List.mem_cons.mp hc with hc | hc
    · subst hc
      by_cases hd : c.isDigit
      · simp [digitDot, hd]
      · simp only [hd, if_false] at h
        by_cases hdot : c == '.'
        · simp [digitDot, hdot]
        · simp [hdot] at h
    · by_cases hd : a.isDigit
      · simp only [hd, if_true] at h
        exact ih h c hc
      · simp only [hd, if_false] at h
        by_cases hdot : a == '.'
        · simp only [hdot, if_true] at h
          cases b with
          | true => simp at h
          | false => exact ih h c hc
        · simp [hdot] at h

theorem pathLang_all {cs : List Char} (h : isPathLang cs = true) :
    ∀ c ∈ cs, digitDot c = true := pathLangAux_all h

theorem pathLang_head_digit {cs : List Char} (h : isPathLang cs = true) :
    ∃ c cs', cs = c :: cs' ∧ c.isDigit = true := by
  cases cs with
  | nil => simp [isPathLang, pathLangAux] at h
  | cons a cs =>
    refine ⟨a, cs, rfl, ?_⟩
    rw [isPathLang, pathLangAux] at h
    by_cases hd : a.isDigit
    · exact hd
    · simp only [hd, if_false] at h
      by_cases hdot : a == '.'
      · simp [hdot] at h
      · simp [hdot] at h

theorem isDateShape_len {d : List Char} (h : isDateShape d = true) : d.length = 10 := by
  unfold isDateShape at h
  split at h
  · simp_all
  · cases h

theorem matchFileName_mk (p t k d e : List Char)
    (hp : isPathLang p = true)
    (ht : t ≠ []) (htc : ∀ c ∈ t, titleChar c = true)
    (hk : k ≠ []) (hkc : ∀ c ∈ k, Char.isDigit c = true)
    (hd : isDateShape d = true)
    (he : e ≠ []) (hec : ∀ c ∈ e, wordChar c = true) :
    matchFileName (mkFileName p t k d e) = some ⟨p, t, k, d, e⟩ := by
  have hpall : ∀ c ∈ p, digitDot c = true := pathLang_all hp
  have h1 : (mkFileName p t k d e).takeWhile digitDot = p :=
    takeWhile_append_of_all digitDot p '_'
      (t ++ '_' :: (revMarker ++ (k ++ '_' :: (d ++ '.' :: e)))) hpall (by decide)
  have h2 : (mkFileName p t k d e).dropWhile digitDot =
      '_' :: (t ++ '_' :: (revMarker ++ (k ++ '_' :: (d ++ '.' :: e)))) :=
    dropWhile_append_of_all digitDot p '_'
      (t ++ '_' :: (revMarker ++ (k ++ '_' :: (d ++ '.' :: e)))) hpall (by decide)
  have h3 : (t ++ '_' :: (revMarker ++ (k ++ '_' :: (d ++ '.' :: e)))).takeWhile titleChar = t :=
    takeWhile_append_of_all titleChar t '_'
      (revMarker ++ (k ++ '_' :: (d ++ '.' :: e))) htc (by decide)
  have h4 : (t ++ '_' :: (revMarker ++ (k ++ '_' :: (d ++ '.' :: e)))).dropWhile titleChar =
      '_' :: (revMarker ++ (k ++ '_' :: (d ++ '.' :: e))) :=
    dropWhile_append_of_all titleChar t '_'
      (revMarker ++ (k ++ '_' :: (d ++ '.' :: e))) htc (by decide)
  have h5 : (k ++ '_' :: (d ++ '.' :: e)).takeWhile Char.isDigit = k :=
    takeWhile_append_of_all Char.isDigit k '_' (d ++ '.' :: e) hkc (by decide)
  have h6 : (k ++ '_' :: (d ++ '.' :: e)).dropWhile Char.isDigit = '_' :: (d ++ '.' :: e) :=
    dropWhile_append_of_all Char.isDigit k '_' (d ++ '.' :: e) hkc (by decide)
  have hdl : d.length = 10 := isDateShape_len hd
  have htake : (d ++ '.' :: e).take 10 = d := by
    rw [← hdl]; exact List.take_left _ _
  have hdrop : (d ++ '.' :: e).drop 10 = '.' :: e := by
    rw [← hdl]; exact List.drop_left _ _
  have htne : t.isEmpty = false := by
    cases t with
    | nil => exact absurd rfl ht
    | cons a t => rfl
  have hkne : k.isEmpty = false := by
    cases k with
    | nil => exact absurd rfl hk
    | cons a k => rfl
  have hene : e.isEmpty = false := by
    cases e with
    | nil => exact absurd rfl he
    | cons a e => rfl
  simp only [revMarker, List.cons_append, List.nil_append] at h1 h2 h3 h4 h5 h6
  simp only [matchFileName, h1, h2, hp, if_true, htne, Bool.false_eq_true, if_false, h3, h4,
    h5, h6, hkne, htake, hdrop, hd]
  simp [hene, List.all_eq_true.mpr hec]

theorem matchFileName_eq_some {cs : List Char} {r : ParsedName}
    (h : matchFileName cs = some r) :
    cs = mkFileName r.isoPath r.title r.revDigits r.date r.ext ∧
      isPathLang r.isoPath = true ∧
      r.title ≠ [] ∧ (∀ c ∈ r.title, titleChar c = true) ∧
      r.revDigits ≠ [] ∧ (∀ c ∈ r.revDigits, Char.isDigit c = true) ∧
      isDateShape r.date = true ∧
      r.ext ≠ [] ∧ (∀ c ∈ r.ext, wordChar c = true) := by
  simp only [matchFileName] at h
  split at h
  case isFalse => cases h
  case isTrue hp =>
  split at h
  case h_2 => cases h
  case h_1 r2 heq1 =>
  split at h
  case isTrue => cases h
  case isFalse hte =>
  split at h
  case h_2 => cases h
  case h_1 r4 heq3 =>
  split at h
  case isTrue => cases h
  case isFalse hke =>
  split at h
  case h_2 => cases h
  case h_1 rest heq5 =>
  split at h
  case isFalse => cases h
  case isTrue hds =>
  split at h
  case h_2 => cases h
  case h_1 e heq6 =>
  split at h
  case isFalse => cases h
  case isTrue hee =>
  injection h with h
  subst h
  simp only [Bool.and_eq_true, Bool.not_eq_true'] at hee
  have hte2 : r2.takeWhile titleChar ≠ [] := by
    intro hx; rw [hx] at hte; exact hte rfl
  have hke2 : r4.takeWhile Char.isDigit ≠ [] := by
    intro hx; rw [hx] at hke; exact hke rfl
  have hee1 : e ≠ [] := by
    intro hx; rw [hx] at hee; simp at hee
  refine ⟨?_, hp, hte2, ?_, hke2, ?_, hds, hee1, List.all_eq_true.mp hee.2⟩
  · have e1 : cs = cs.takeWhile digitDot ++ cs.dropWhile digitDot :=
      (List.takeWhile_append_dropWhile _ _).symm
    have e2 : r2 = r2.takeWhile titleChar ++ r2.dropWhile titleChar :=
      (List.takeWhile_append_dropWhile _ _).symm
    have e3 : r4 = r4.takeWhile Char.isDigit ++ r4.dropWhile Char.isDigit :=
      (List.takeWhile_append_dropWhile _ _).symm
    have e4 : rest = rest.take 10 ++ rest.drop 10 := (List.take_append_drop _ _).symm
    rw [mkFileName, revMarker]
    conv_lhs => rw [e1, heq1]
    conv_lhs => rw [e2, heq3]
    conv_lhs => rw [e3, heq5]
    conv_lhs => rw [e4, heq6]
    simp
  · intro c hc; exact List.mem_takeWhile_imp hc
  · intro c hc; exact List.mem_takeWhile_imp hc

theorem containsSeq_of_parts (n : List Char) (hn : n ≠ []) (pre post : List Char) :
    containsSeq n (pre ++ (n ++ post)) = true := by
  induction pre with
  | nil =>
    simp only [List.nil_append]
    cases n with
    | nil => exact absurd rfl hn
    | cons a n' =>
      rw [List.cons_append, containsSeq]
      have hpre : (a :: n').isPrefixOf (a :: (n' ++ post)) = true :=
        List.isPrefixOf_iff_prefix.mpr (by rw [← List.cons_append]; exact List.prefix_append _ _)
      simp [hpre]
  | cons a pre ih =>
    rw [List.cons_append, containsSeq]
    simp [ih]

theorem containsDateShape_of_parts {w : List Char} (hw : isDateShape w = true)
    (pre post : List Char) : containsDateShape (pre ++ (w ++ post)) = true := by
  induction pre with
  | nil =>
    simp only [List.nil_append]
    have hlen : w.length = 10 := isDateShape_len hw
    have htake : (w ++ post).take 10 = w := by rw [← hlen]; exact List.take_left _ _
    cases w with
    | nil => simp at hlen
    | cons a w' =>
      rw [List.cons_append, containsDateShape, ← List.cons_append, htake]
      simp [hw]
  | cons a pre ih =>
    rw [List.cons_append, containsDateShape]
    simp [ih]

theorem matchFileName_none_of_noRev {cs : List Char}
    (h : containsSeq revMarker cs = false) : matchFileName cs = none := by
  cases hm : matchFileName cs with
  | none => rfl
  | some r =>
    exfalso
    obtain ⟨hdec, -⟩ := matchFileName_eq_some hm
    have hcs : cs = (r.isoPath ++ '_' :: (r.title ++ ['_'])) ++
        (revMarker ++ (r.revDigits ++ '_' :: (r.date ++ '.' :: r.ext))) := by
      rw [hdec]; simp [mkFileName]
    have := containsSeq_of_parts revMarker (by decide)
      (r.isoPath ++ '_' :: (r.title ++ ['_']))
      (r.revDigits ++ '_' :: (r.date ++ '.' :: r.ext))
    rw [← hcs] at this
    rw [this] at h
    cases h

theorem matchFileName_none_of_headNotDigit {cs : List Char}
    (h : ∀ c cs', cs = c :: cs' → c.isDigit = false) : matchFileName cs = none := by
  cases hm : matchFileName cs with
  | none => rfl
  | some r =>
    exfalso
    obtain ⟨hdec, hp, -⟩ := matchFileName_eq_some hm
    obtain ⟨c, p', hpc, hcd⟩ := pathLang_head_digit hp
    have : cs = c :: (p' ++ '_' :: (r.title ++ '_' :: (revMarker ++
        (r.revDigits ++ '_' :: (r.date ++ '.' :: r.ext))))) := by
      rw [hdec, mkFileName, hpc]; simp
    rw [h c _ this] at hcd
    cases hcd

theorem matchFileName_none_of_noDate {cs : List Char}
    (h : containsDateShape cs = false) : matchFileName cs = none := by
  cases hm : matchFileName cs with
  | none => rfl
  | some r =>
    exfalso
    obtain ⟨hdec, -, -, -, -, -, hds, -⟩ := matchFileName_eq_some hm
    have hcs : cs = (r.isoPath ++ '_' :: (r.title ++ '_' :: (revMarker ++
        (r.revDigits ++ ['_'])))) ++ (r.date ++ '.' :: r.ext) := by
      rw [hdec]; simp [mkFileName]
    have := containsDateShape_of_parts hds
      (r.isoPath ++ '_' :: (r.title ++ '_' :: (revMarker ++ (r.revDigits ++ ['_']))))
      ('.' :: r.ext)
    rw [← hcs] at this
    rw [this] at h
    cases h

/- ───────────────────── folder-id extraction lemmas ───────────────────── -/

theorem idChar_not_ws {c : Char} (h : idChar c = true) : c.isWhitespace = false := by
  by_contra hw
  rw [Bool.not_eq_false] at hw
  have hcases : ((c = ' ' ∨ c = '\t') ∨ c = '\r') ∨ c = '\n' := by
    simpa [Char.isWhitespace] using hw
  rcases hcases with ((rfl | rfl) | rfl) | rfl <;> exact absurd h (by decide)

theorem stripSeq_eq_some : ∀ {l cs r : List Char}, stripSeq l cs = some r → cs = l ++ r := by
  intro l
  induction l with
  | nil =>
    intro cs r h
    rw [stripSeq] at h
    injection h
  | cons a l ih =>
    intro cs r h
    cases cs with
    | nil => rw [stripSeq] at h; cases h
    | cons c cs =>
      rw [stripSeq] at h
      by_cases hac : a == c
      · have hac2 : a = c := by simpa using hac
        simp only [hac, if_true] at h
        rw [List.cons_append, ← hac2, ih h]
      · simp [hac] at h

theorem searchFrom_eq_some {m : List Char → Option (List Char)} :
    ∀ {cs v : List Char}, searchFrom m cs = some v →
      ∃ pre suf, cs = pre ++ suf ∧ m suf = some v := by
  intro cs
  induction cs with
  | nil => intro v h; exact ⟨[], [], rfl, h⟩
  | cons c cs ih =>
    intro v h
    rw [searchFrom] at h
    split at h
    · rename_i r heq
      exact ⟨[], c :: cs, rfl, by rw [heq]; exact h⟩
    · obtain ⟨pre, suf, hcs, hsuf⟩ := ih h
      exact ⟨c :: pre, suf, by rw [List.cons_append, hcs], hsuf⟩

theorem matchDrivePathAt_host {seg cs ids : List Char}
    (h : matchDrivePathAt seg cs = some ids) :
    ∃ r, cs = driveHost ++ r := by
  rw [matchDrivePathAt] at h
  split at h
  · cases h
  · rename_i r heq
    have := stripSeq_eq_some heq
    refine ⟨String.toList ("/drive/") ++ r, ?_⟩
    rw [this, ← List.append_assoc]
    rfl

theorem matchOpenIdAt_host {cs ids : List Char}
    (h : matchOpenIdAt cs = some ids) :
    ∃ r, cs = driveHost ++ r := by
  rw [matchOpenIdAt] at h
  split at h
  · cases h
  · rename_i r heq
    have := stripSeq_eq_some heq
    refine ⟨String.toList ("/open?id=") ++ r, ?_⟩
    rw [this, ← List.append_assoc]
    rfl

theorem searchDrive_contains {seg cs v : List Char}
    (h : searchFrom (matchDrivePathAt seg) cs = some v) :
    containsSeq driveHost cs = true := by
  obtain ⟨pre, suf, hcs, hsuf⟩ := searchFrom_eq_some h
  obtain ⟨r, hr⟩ := matchDrivePathAt_host hsuf
  rw [hcs, hr]
  exact containsSeq_of_parts driveHost (by decide) pre r

theorem searchOpen_contains {cs v : List Char}
    (h : searchFrom matchOpenIdAt cs = some v) :
    containsSeq driveHost cs = true := by
  obtain ⟨pre, suf, hcs, hsuf⟩ := searchFrom_eq_some h
  obtain ⟨r, hr⟩ := matchOpenIdAt_host hsuf
  rw [hcs, hr]
  exact containsSeq_of_parts driveHost (by decide) pre r

/- ───────────────────── decimal string lemmas ───────────────────── -/

theorem digitChar_isDigit (n : Nat) : (digitChar n).isDigit = true := by
  unfold digitChar
  split <;> decide

theorem digitVal_digitChar {n : Nat} (h : n < 10) : digitVal (digitChar n) = n := by
  interval_cases n <;> decide

theorem natDigitsAux_all_digit : ∀ fuel n c, c ∈ natDigitsAux fuel n → c.isDigit = true := by
  intro fuel
  induction fuel with
  | zero => intro n c hc; rw [natDigitsAux] at hc; cases hc
  | succ fuel ih =>
    intro n c hc
    rw [natDigitsAux] at hc
    by_cases h10 : n < 10
    · simp only [h10, if_true, List.mem_singleton] at hc
      rw [hc]; exact digitChar_isDigit n
    · simp only [h10, if_false] at hc
      rcases List.mem_append.mp hc with hc | hc
      · exact ih _ c hc
      · rw [List.mem_singleton.mp hc]; exact digitChar_isDigit _

theorem natDigits_all_digit (n : Nat) {c : Char} (h : c ∈ natDigits n) : c.isDigit = true :=
  natDigitsAux_all_digit _ _ _ h

theorem natDigits_ne_nil (n : Nat) : natDigits n ≠ [] := by
  rw [natDigits, natDigitsAux]
  by_cases h10 : n < 10
  · simp [h10]
  · simp [h10]

theorem natDigitsAux_foldl : ∀ fuel n, n < fuel → ∀ acc,
    (natDigitsAux fuel n).foldl (fun a c => a * 10 + digitVal c) acc =
      acc * 10 ^ (natDigitsAux fuel n).length + n := by
  intro fuel
  induction fuel with
  | zero => intro n h; exact absurd h (Nat.not_lt_zero n)
  | succ fuel ih =>
    intro n hn acc
    rw [natDigitsAux]
    by_cases h10 : n < 10
    · simp only [h10, if_true, List.foldl_cons, List.foldl_nil, List.length_singleton,
        pow_one]
      rw [digitVal_digitChar h10]
    · simp only [h10, if_false]
      have hdiv : n / 10 < fuel :=
        lt_of_lt_of_le (Nat.div_lt_self (by omega) (by omega)) (Nat.lt_succ_iff.mp hn)
      rw [List.foldl_append, ih (n / 10) hdiv acc]
      simp only [List.foldl_cons, List.foldl_nil, List.length_append,
        List.length_singleton, pow_succ]
      rw [digitVal_digitChar (Nat.mod_lt n (by omega))]
      have hmod := Nat.div_add_mod n 10
      have hring : (acc * 10 ^ (natDigitsAux fuel (n / 10)).length + n / 10) * 10 + n % 10 =
          acc * (10 ^ (natDigitsAux fuel (n / 10)).length * 10) + (10 * (n / 10) + n % 10) := by
        ring
      rw [hring, hmod]

theorem digitsVal_natDigits (n : Nat) : digitsVal (natDigits n) = n := by
  have h := natDigitsAux_foldl (n + 1) n (Nat.lt_succ_self n) 0
  simpa [digitsVal, natDigits] using h

theorem natDigits_injective {a b : Nat} (h : natDigits a = natDigits b) : a = b := by
  have ha := digitsVal_natDigits a
  rw [h, digitsVal_natDigits b] at ha
  exact ha.symm

theorem takeWhile_all_eq {p : Char → Bool} {l : List Char} (h : ∀ c ∈ l, p c = true) :
    l.takeWhile p = l := by
  induction l with
  | nil => rfl
  | cons a l ih =>
    rw [List.takeWhile_cons, h a (List.mem_cons_self a l),
      ih (fun c hc => h c (List.mem_cons_of_mem a hc))]
    simp

theorem parseIntJS_natDigits (n : Nat) : parseIntJS (natDigits n) = some ((n : Int)) := by
  cases hd : natDigits n with
  | nil => exact absurd hd (natDigits_ne_nil n)
  | cons c rest =>
    have hall : ∀ x ∈ c :: rest, Char.isDigit x = true := by
      intro x hx
      exact natDigits_all_digit n (hd ▸ hx)
    have hcd : c.isDigit = true := hall c (List.mem_cons_self c rest)
    have hneg : (c == '-') = false := by
      by_cases h2 : c = '-'
      · rw [h2] at hcd; exact absurd hcd (by decide)
      · simp [h2]
    have hplus : (c == '+') = false := by
      by_cases h2 : c = '+'
      · rw [h2] at hcd; exact absurd hcd (by decide)
      · simp [h2]
    have htw : (c :: rest).takeWhile Char.isDigit = c :: rest := takeWhile_all_eq hall
    rw [parseIntJS]
    simp only [hneg, hplus, Bool.false_eq_true, if_false, htw]
    have : digitsVal (c :: rest) = n := by rw [← hd]; exact digitsVal_natDigits n
    rw [this]

theorem mkRev_injective {a b : Nat} (h : mkRev a = mkRev b) : a = b := by
  rw [mkRev, mkRev] at h
  have h2 : revMarker ++ natDigits a = revMarker ++ natDigits b := congrArg String.toList h
  exact natDigits_injective (List.append_cancel_left h2)

theorem removeFirstSeq_self_append (x : List Char) :
    removeFirstSeq revMarker (revMarker ++ x) = x := by
  have hp : revMarker.isPrefixOf ('R' :: 'e' :: 'v' :: '.' :: x) = true :=
    List.isPrefixOf_iff_prefix.mpr ⟨x, rfl⟩
  show removeFirstSeq revMarker ('R' :: 'e' :: 'v' :: '.' :: x) = x
  rw [removeFirstSeq, hp]
  rfl

theorem revNumOf_mkRev (k : Nat) : revNumOf (mkRev k) = some ((k : Int)) := by
  show parseIntJS (removeFirstSeq revMarker (revMarker ++ natDigits k)) = some ((k : Int))
  rw [removeFirstSeq_self_append, parseIntJS_natDigits]

theorem revLtB_mkRev {a b : Nat} : revLtB (revNumOf (mkRev a)) (revNumOf (mkRev b)) = decide (a < b) := by
  rw [revNumOf_mkRev, revNumOf_mkRev, revLtB]
  simp

theorem containsSeq_eq_true {n : List Char} :
    ∀ {hay : List Char}, containsSeq n hay = true →
      ∃ pre post, hay = pre ++ (n ++ post) := by
  intro hay
  induction hay with
  | nil =>
    intro h
    rw [containsSeq] at h
    have : n = [] := List.isEmpty_iff.mp h
    exact ⟨[], [], by simp [this]⟩
  | cons c cs ih =>
    intro h
    rw [containsSeq, Bool.or_eq_true] at h
    rcases h with h | h
    · obtain ⟨post, hp⟩ := List.isPrefixOf_iff_prefix.mp h
      exact ⟨[], post, by rw [← hp]; rfl⟩
    · obtain ⟨pre, post, hcs⟩ := ih h
      exact ⟨c :: pre, post, by rw [hcs]; rfl⟩

theorem colon_mem_of_contains_host {cs : List Char}
    (h : containsSeq driveHost cs = true) : ':' ∈ cs := by
  obtain ⟨pre, post, hcs⟩ := containsSeq_eq_true h
  rw [hcs]
  refine List.mem_append_right _ (List.mem_append_left _ ?_)
  decide

/- ───────────────────── repository lemmas ───────────────────── -/

theorem getDoc_isSome_iff {st : Store} {p t rev : String} :
    (getDocumentByPathAndTitleAndRevision st p t rev).isSome ↔ hasTriple st p t rev := by
  rw [getDocumentByPathAndTitleAndRevision, List.find?_isSome, hasTriple]
  constructor
  · rintro ⟨d, hd, hpred⟩
    simp only [Bool.and_eq_true, beq_iff_eq] at hpred
    exact ⟨d, hd, hpred.1.1, hpred.1.2, hpred.2⟩
  · rintro ⟨d, hd, h1, h2, h3⟩
    exact ⟨d, hd, by simp [h1, h2, h3]⟩

theorem hasTriple_markFirst {l : List Doc} {i : Nat} {p t rev : String} :
    (∃ d ∈ markFirstObsolete l i, d.path = p ∧ d.title = t ∧ d.revision = rev) ↔
      (∃ d ∈ l, d.path = p ∧ d.title = t ∧ d.revision = rev) := by
  induction l with
  | nil => rfl
  | cons d ds ih =>
    rw [markFirstObsolete]
    by_cases hid : (d.legacyId == i) = true
    · simp only [hid, if_true]
      constructor
      · rintro ⟨x, hx, hfx⟩
        rcases List.mem_cons.mp hx with rfl | hx
        · exact ⟨d, List.mem_cons_self d ds, hfx⟩
        · exact ⟨x, List.mem_cons_of_mem d hx, hfx⟩
      · rintro ⟨x, hx, hfx⟩
        rcases List.mem_cons.mp hx with rfl | hx
        · exact ⟨setObsolete x, List.mem_cons_self _ ds, hfx⟩
        · exact ⟨x, List.mem_cons_of_mem _ hx, hfx⟩
    · simp only [hid, if_false]
      constructor
      · rintro ⟨x, hx, hfx⟩
        rcases List.mem_cons.mp hx with rfl | hx
        · exact ⟨x, List.mem_cons_self x ds, hfx⟩
        · obtain ⟨y, hy, hfy⟩ := ih.mp ⟨x, hx, hfx⟩
          exact ⟨y, List.mem_cons_of_mem d hy, hfy⟩
      · rintro ⟨x, hx, hfx⟩
        rcases List.mem_cons.mp hx with rfl | hx
        · exact ⟨x, List.mem_cons_self x _, hfx⟩
        · obtain ⟨y, hy, hfy⟩ := ih.mpr ⟨x, hx, hfx⟩
          exact ⟨y, List.mem_cons_of_mem d hy, hfy⟩

theorem hasTriple_markObsoleteDocuments {ds : List Doc} :
    ∀ {st : Store} {u : Nat} {p t rev : String},
      hasTriple (markObsoleteDocuments st ds u) p t rev ↔ hasTriple st p t rev := by
  induction ds with
  | nil => intro st u p t rev; rfl
  | cons d0 rest ih =>
    intro st u p t rev
    rw [markObsoleteDocuments, List.foldl_cons]
    rw [show List.foldl (fun acc d => createLog (markDocumentObsolete acc d.legacyId)
        ⟨u, ("revision"), d.legacyId⟩) (createLog (markDocumentObsolete st d0.legacyId)
        ⟨u, ("revision"), d0.legacyId⟩) rest = markObsoleteDocuments (createLog
        (markDocumentObsolete st d0.legacyId) ⟨u, ("revision"), d0.legacyId⟩) rest u from rfl]
    rw [ih]
    exact hasTriple_markFirst

theorem hasTriple_createDocument {st : Store} {p t rev p' t' r' : String}
    (h : hasTriple st p t rev) : hasTriple (createDocument st p' t' r') p t rev := by
  obtain ⟨d, hd, hf⟩ := h
  exact ⟨d, List.mem_append_left _ hd, hf⟩

theorem ingest_hasTriple_self (st : Store) (p t rev : String) (u : Nat) :
    hasTriple (ingest st p t rev u) p t rev := by
  rw [ingest]
  cases hf : getDocumentByPathAndTitleAndRevision st p t rev with
  | some d =>
    have : (getDocumentByPathAndTitleAndRevision st p t rev).isSome := by rw [hf]; rfl
    exact getDoc_isSome_iff.mp this
  | none =>
    refine hasTriple_markObsoleteDocuments.mpr ?_
    exact ⟨⟨st.nextId, p, t, rev, false⟩, List.mem_append_right _ (List.mem_singleton.mpr rfl),
      rfl, rfl, rfl⟩

theorem ingest_hasTriple_mono {st : Store} {p t rev : String} (p' t' r' : String) (u : Nat)
    (h : hasTriple st p t rev) : hasTriple (ingest st p' t' r' u) p t rev := by
  rw [ingest]
  cases getDocumentByPathAndTitleAndRevision st p' t' r' with
  | some d => exact h
  | none => exact hasTriple_markObsoleteDocuments.mpr (hasTriple_createDocument h)

theorem ingest_of_hasTriple {st : Store} {p t rev : String} (u : Nat)
    (h : hasTriple st p t rev) : ingest st p t rev u = st := by
  have hs := getDoc_isSome_iff.mpr h
  rw [ingest]
  cases hf : getDocumentByPathAndTitleAndRevision st p t rev with
  | some d => rfl
  | none => rw [hf] at hs; cases hs

theorem syncPassIngest_cons (st : Store) (n : String) (names : List String) (u : Nat) :
    syncPassIngest st (n :: names) u =
      syncPassIngest (match matchFileName n.toList with
        | none => st
        | some r => ingest st (String.mk r.isoPath) (String.mk (trimSpaces r.title))
            (String.mk (revMarker ++ r.revDigits)) u) names u := by
  rw [syncPassIngest, List.foldl_cons]
  rfl

theorem syncPassIngest_hasTriple_mono {st : Store} {p t rev : String} {names : List String}
    {u : Nat} (h : hasTriple st p t rev) :
    hasTriple (syncPassIngest st names u) p t rev := by
  induction names generalizing st with
  | nil => exact h
  | cons n rest ih =>
    rw [syncPassIngest_cons]
    cases matchFileName n.toList with
    | none => exact ih h
    | some r => exact ih (ingest_hasTriple_mono _ _ _ _ h)

theorem syncPassIngest_establishes {names : List String} :
    ∀ {st : Store} {u : Nat} {n : String} {r : ParsedName},
      n ∈ names → matchFileName n.toList = some r →
      hasTriple (syncPassIngest st names u) (String.mk r.isoPath)
        (String.mk (trimSpaces r.title)) (String.mk (revMarker ++ r.revDigits)) := by
  induction names with
  | nil => intro st u n r hn; cases hn
  | cons n0 rest ih =>
    intro st u n r hn hr
    rw [syncPassIngest_cons]
    rcases List.mem_cons.mp hn with rfl | hn
    · rw [hr]
      exact syncPassIngest_hasTriple_mono (ingest_hasTriple_self st _ _ _ u)
    · cases matchFileName n0.toList with
      | none => exact ih hn hr
      | some r0 => exact ih hn hr

theorem syncPassIngest_of_allPresent {names : List String} :
    ∀ {st : Store} {u : Nat},
      (∀ n ∈ names, ∀ r : ParsedName, matchFileName n.toList = some r →
        hasTriple st (String.mk r.isoPath) (String.mk (trimSpaces r.title))
          (String.mk (revMarker ++ r.revDigits))) →
      syncPassIngest st names u = st := by
  induction names with
  | nil => intro st u _; rfl
  | cons n0 rest ih =>
    intro st u h
    rw [syncPassIngest_cons]
    cases hp : matchFileName n0.toList with
    | none => exact ih (fun n hn r hr => h n (List.mem_cons_of_mem n0 hn) r hr)
    | some r0 =>
      show syncPassIngest (ingest st (String.mk r0.isoPath) (String.mk (trimSpaces r0.title))
        (String.mk (revMarker ++ r0.revDigits)) u) rest u = st
      rw [ingest_of_hasTriple u (h n0 (List.mem_cons_self n0 rest) r0 hp)]
      exact ih (fun n hn r hr => h n (List.mem_cons_of_mem n0 hn) r hr)

/- ───────────────────── marking lemmas ───────────────────── -/

theorem setObsolete_legacyId (d : Doc) : (setObsolete d).legacyId = d.legacyId := rfl

theorem setObsolete_idem (d : Doc) : setObsolete (setObsolete d) = setObsolete d := rfl

theorem markObsoleteDocuments_cons (st : Store) (d0 : Doc) (rest : List Doc) (u : Nat) :
    markObsoleteDocuments st (d0 :: rest) u =
      markObsoleteDocuments (createLog (markDocumentObsolete st d0.legacyId)
        ⟨u, ("revision"), d0.legacyId⟩) rest u := by
  rw [markObsoleteDocuments, List.foldl_cons]
  rfl

theorem markObsoleteDocuments_logs : ∀ (ds : List Doc) (st : Store) (u : Nat),
    (markObsoleteDocuments st ds u).logs =
      st.logs ++ ds.map (fun d => (⟨u, ("revision"), d.legacyId⟩ : LogEntry)) := by
  intro ds
  induction ds with
  | nil => intro st u; simp [markObsoleteDocuments]
  | cons d0 rest ih =>
    intro st u
    rw [markObsoleteDocuments_cons, ih]
    simp [createLog, markDocumentObsolete]

theorem markObsoleteDocuments_docs : ∀ (ds : List Doc) (st : Store) (u : Nat),
    (markObsoleteDocuments st ds u).docs =
      ds.foldl (fun acc d => markFirstObsolete acc d.legacyId) st.docs := by
  intro ds
  induction ds with
  | nil => intro st u; rfl
  | cons d0 rest ih =>
    intro st u
    rw [markObsoleteDocuments_cons, ih, List.foldl_cons]
    rfl

theorem markObsoleteDocuments_nextId : ∀ (ds : List Doc) (st : Store) (u : Nat),
    (markObsoleteDocuments st ds u).nextId = st.nextId := by
  intro ds
  induction ds with
  | nil => intro st u; rfl
  | cons d0 rest ih =>
    intro st u
    rw [markObsoleteDocuments_cons, ih]
    rfl

theorem markFirstObsolete_eq_map {l : List Doc} {i : Nat}
    (h : (l.map Doc.legacyId).Nodup) :
    markFirstObsolete l i = l.map (fun d => if d.legacyId = i then setObsolete d else d) := by
  induction l with
  | nil => rfl
  | cons d ds ih =>
    rw [List.map_cons] at h
    obtain ⟨hni, hnd⟩ := List.nodup_cons.mp h
    rw [markFirstObsolete, List.map_cons]
    by_cases hid : d.legacyId = i
    · have hbeq : (d.legacyId == i) = true := by simpa using hid
      have hall : ∀ x ∈ ds, (if x.legacyId = i then setObsolete x else x) = x := by
        intro x hx
        have hxi : x.legacyId ≠ i := by
          intro he
          exact hni (hid ▸ he ▸ List.mem_map_of_mem Doc.legacyId hx)
        simp [hxi]
      have hmap : ds.map (fun x => if x.legacyId = i then setObsolete x else x) = ds :=
        (List.map_congr_left hall).trans (List.map_id ds)
      rw [hmap]
      simp [hbeq, hid]
    · have hid2 : (d.legacyId == i) = false := by simpa using hid
      simp only [hid2, Bool.false_eq_true, if_false, hid]
      rw [ih hnd]

theorem map_legacyId_markIf (l : List Doc) (i : Nat) :
    (l.map (fun d => if d.legacyId = i then setObsolete d else d)).map Doc.legacyId =
      l.map Doc.legacyId := by
  rw [List.map_map]
  apply List.map_congr_left
  intro x hx
  by_cases h : x.legacyId = i <;> simp [Function.comp, h, setObsolete]

theorem foldMark_eq_map : ∀ (ds : List Doc) {l : List Doc},
    (l.map Doc.legacyId).Nodup →
    ds.foldl (fun acc d => markFirstObsolete acc d.legacyId) l =
      l.map (fun x => if x.legacyId ∈ ds.map Doc.legacyId then setObsolete x else x) := by
  intro ds
  induction ds with
  | nil =>
    intro l _
    simp
  | cons d0 rest ih =>
    intro l h
    rw [List.foldl_cons, markFirstObsolete_eq_map h]
    have h2 : ((l.map (fun d => if d.legacyId = d0.legacyId then setObsolete d else d)).map
        Doc.legacyId).Nodup := by
      rw [map_legacyId_markIf]; exact h
    rw [ih h2, List.map_map]
    apply List.map_congr_left
    intro x hx
    by_cases h1 : x.legacyId = d0.legacyId
    · by_cases h2 : x.legacyId ∈ rest.map Doc.legacyId <;>
        simp [Function.comp, h1, h2, setObsolete, List.mem_cons]
    · by_cases h2 : x.legacyId ∈ rest.map Doc.legacyId <;>
        simp [Function.comp, h1, h2, setObsolete, List.mem_cons]

theorem revLtB_eq_true_iff {x y : Option Int} :
    revLtB x y = true ↔ ∃ a b : Int, x = some a ∧ y = some b ∧ a < b := by
  cases x <;> cases y <;> simp [revLtB]

theorem mem_findObsoleteRevisions_iff {st : Store} {p t rev : String} {d : Doc} :
    d ∈ findObsoleteRevisions st p t rev ↔
      d ∈ st.docs ∧ d.path = p ∧ d.title = t ∧
        ∃ a b : Int, revNumOf d.revision = some a ∧ revNumOf rev = some b ∧ a < b := by
  rw [findObsoleteRevisions, getDocumentsByPathAndTitle, List.mem_filter, List.mem_filter]
  rw [revLtB_eq_true_iff]
  simp [Bool.and_eq_true, beq_iff_eq, and_assoc]

theorem ingest_none_case {st : Store} {p t rev : String} {u : Nat}
    (h : getDocumentByPathAndTitleAndRevision st p t rev = none) :
    ingest st p t rev u = markObsoleteDocuments (createDocument st p t rev)
      (findObsoleteRevisions (createDocument st p t rev) p t rev) u := by
  rw [ingest, h]

/- ───────────────────── obsolescence invariant lemmas ───────────────────── -/

theorem findObsoleteRevisions_create (st : Store) (p t : String) (k : Nat) :
    findObsoleteRevisions (createDocument st p t (mkRev k)) p t (mkRev k) =
      st.docs.filter (fun d => revLtB (revNumOf d.revision) (some ((k : Int))) &&
        (d.path == p && d.title == t)) := by
  rw [findObsoleteRevisions, getDocumentsByPathAndTitle]
  show ((st.docs ++ [(⟨st.nextId, p, t, mkRev k, false⟩ : Doc)]).filter
      (fun d => d.path == p && d.title == t)).filter
      (fun d => revLtB (revNumOf d.revision) (revNumOf (mkRev k))) = _
  rw [List.filter_append, List.filter_append, List.filter_filter]
  have hnew : (List.filter (fun d => d.path == p && d.title == t)
      [(⟨st.nextId, p, t, mkRev k, false⟩ : Doc)]).filter
      (fun d => revLtB (revNumOf d.revision) (revNumOf (mkRev k))) = [] := by
    simp [List.filter, revLtB_mkRev]
  rw [hnew, List.append_nil]
  apply List.filter_congr
  intro d _
  rw [revNumOf_mkRev]

theorem createDocument_ids_nodup {st : Store} (hnodup : (st.docs.map Doc.legacyId).Nodup)
    (hbound : ∀ d ∈ st.docs, d.legacyId < st.nextId) (p t rev : String) :
    ((createDocument st p t rev).docs.map Doc.legacyId).Nodup := by
  show ((st.docs ++ [(⟨st.nextId, p, t, rev, false⟩ : Doc)]).map Doc.legacyId).Nodup
  rw [List.map_append]
  refine List.Nodup.append hnodup (List.nodup_singleton _) ?_
  intro x hx hx2
  simp only [List.map_cons, List.map_nil, List.mem_singleton] at hx2
  obtain ⟨d, hd, hdx⟩ := List.mem_map.mp hx
  have := hbound d hd
  omega

theorem filter_map_stable {f : Doc → Doc} {q : Doc → Bool} :
    ∀ {l : List Doc}, (∀ y ∈ l, f y = y ∨ (q (f y) = false ∧ q y = false)) →
      (l.map f).filter q = l.filter q := by
  intro l
  induction l with
  | nil => intro _; rfl
  | cons y l ih =>
    intro h
    rw [List.map_cons, List.filter_cons, List.filter_cons]
    rcases h y (List.mem_cons_self y l) with hy | ⟨hq1, hq2⟩
    · rw [hy, ih (fun z hz => h z (List.mem_cons_of_mem y hz))]
    · rw [hq1, hq2]
      simp only [Bool.false_eq_true, if_false]
      exact ih (fun z hz => h z (List.mem_cons_of_mem y hz))

theorem setObsolete_path (d : Doc) : (setObsolete d).path = d.path := rfl

theorem setObsolete_title (d : Doc) : (setObsolete d).title = d.title := rfl

theorem setObsolete_revision (d : Doc) : (setObsolete d).revision = d.revision := rfl

theorem markIf_path (ids : List Nat) (d : Doc) :
    ((if d.legacyId ∈ ids then setObsolete d else d)).path = d.path := by
  by_cases h : d.legacyId ∈ ids <;> simp [h, setObsolete]

theorem markIf_title (ids : List Nat) (d : Doc) :
    ((if d.legacyId ∈ ids then setObsolete d else d)).title = d.title := by
  by_cases h : d.legacyId ∈ ids <;> simp [h, setObsolete]

theorem markIf_revision (ids : List Nat) (d : Doc) :
    ((if d.legacyId ∈ ids then setObsolete d else d)).revision = d.revision := by
  by_cases h : d.legacyId ∈ ids <;> simp [h, setObsolete]

theorem markIf_legacyId (ids : List Nat) (d : Doc) :
    ((if d.legacyId ∈ ids then setObsolete d else d)).legacyId = d.legacyId := by
  by_cases h : d.legacyId ∈ ids <;> simp [h, setObsolete]

theorem lower_mem_iff {st : Store} {p t : String} {k : Nat} {d : Doc} :
    d ∈ findObsoleteRevisions (createDocument st p t (mkRev k)) p t (mkRev k) ↔
      d ∈ st.docs ∧ revLtB (revNumOf d.revision) (some ((k : Int))) = true ∧
        d.path = p ∧ d.title = t := by
  rw [findObsoleteRevisions_create, List.mem_filter]
  simp [Bool.and_eq_true, beq_iff_eq, and_assoc]

theorem newDoc_not_marked {st : Store} {p t : String} {k : Nat}
    (hbound : ∀ d ∈ st.docs, d.legacyId < st.nextId) :
    st.nextId ∉ (findObsoleteRevisions (createDocument st p t (mkRev k))
      p t (mkRev k)).map Doc.legacyId := by
  intro hmem
  obtain ⟨d, hd, hdi⟩ := List.mem_map.mp hmem
  have := hbound d (lower_mem_iff.mp hd).1
  omega

theorem marked_docs_split {st : Store} {p t : String} {k : Nat} {uid : Nat}
    (hnodup : (st.docs.map Doc.legacyId).Nodup)
    (hbound : ∀ d ∈ st.docs, d.legacyId < st.nextId) :
    (markObsoleteDocuments (createDocument st p t (mkRev k))
      (findObsoleteRevisions (createDocument st p t (mkRev k)) p t (mkRev k)) uid).docs =
    st.docs.map (fun x => if x.legacyId ∈ (findObsoleteRevisions (createDocument st p t
      (mkRev k)) p t (mkRev k)).map Doc.legacyId then setObsolete x else x) ++
      [⟨st.nextId, p, t, mkRev k, false⟩] := by
  rw [markObsoleteDocuments_docs,
    foldMark_eq_map _ (createDocument_ids_nodup hnodup hbound p t (mkRev k))]
  show (st.docs ++ [(⟨st.nextId, p, t, mkRev k, false⟩ : Doc)]).map _ = _
  rw [List.map_append]
  congr 1
  show [if st.nextId ∈ _ then _ else _] = _
  rw [if_neg (newDoc_not_marked hbound)]

theorem marked_mem_forward {st : Store} {p t : String} {k uid : Nat} {x : Doc}
    (hnodup : (st.docs.map Doc.legacyId).Nodup)
    (hbound : ∀ d ∈ st.docs, d.legacyId < st.nextId)
    (hx : x ∈ (markObsoleteDocuments (createDocument st p t (mkRev k))
      (findObsoleteRevisions (createDocument st p t (mkRev k)) p t (mkRev k)) uid).docs) :
    (∃ y ∈ st.docs, x.path = y.path ∧ x.title = y.title ∧ x.revision = y.revision ∧
      x.legacyId = y.legacyId) ∨ x = ⟨st.nextId, p, t, mkRev k, false⟩ := by
  rw [marked_docs_split hnodup hbound] at hx
  rcases List.mem_append.mp hx with hx | hx
  · obtain ⟨y, hy, rfl⟩ := List.mem_map.mp hx
    exact Or.inl ⟨y, hy, markIf_path _ y, markIf_title _ y, markIf_revision _ y,
      markIf_legacyId _ y⟩
  · exact Or.inr (List.mem_singleton.mp hx)

theorem marked_mem_backward {st : Store} {p t : String} {k uid : Nat}
    (hnodup : (st.docs.map Doc.legacyId).Nodup)
    (hbound : ∀ d ∈ st.docs, d.legacyId < st.nextId) :
    ∀ y ∈ st.docs, ∃ x ∈ (markObsoleteDocuments (createDocument st p t (mkRev k))
      (findObsoleteRevisions (createDocument st p t (mkRev k)) p t (mkRev k)) uid).docs,
      x.path = y.path ∧ x.title = y.title ∧ x.revision = y.revision := by
  intro y hy
  rw [marked_docs_split hnodup hbound]
  refine ⟨(if y.legacyId ∈ (findObsoleteRevisions (createDocument st p t (mkRev k))
    p t (mkRev k)).map Doc.legacyId then setObsolete y else y), ?_, markIf_path _ y,
    markIf_title _ y, markIf_revision _ y⟩
  exact List.mem_append_left _ (List.mem_map_of_mem _ hy)

theorem marked_newDoc_mem {st : Store} {p t : String} {k uid : Nat}
    (hnodup : (st.docs.map Doc.legacyId).Nodup)
    (hbound : ∀ d ∈ st.docs, d.legacyId < st.nextId) :
    (⟨st.nextId, p, t, mkRev k, false⟩ : Doc) ∈
      (markObsoleteDocuments (createDocument st p t (mkRev k))
        (findObsoleteRevisions (createDocument st p t (mkRev k)) p t (mkRev k)) uid).docs := by
  rw [marked_docs_split hnodup hbound]
  exact List.mem_append_right _ (List.mem_singleton.mpr rfl)

theorem marked_ids {st : Store} {p t : String} {k uid : Nat}
    (hnodup : (st.docs.map Doc.legacyId).Nodup)
    (hbound : ∀ d ∈ st.docs, d.legacyId < st.nextId) :
    ((markObsoleteDocuments (createDocument st p t (mkRev k))
      (findObsoleteRevisions (createDocument st p t (mkRev k)) p t (mkRev k)) uid).docs.map
        Doc.legacyId) = st.docs.map Doc.legacyId ++ [st.nextId] := by
  rw [marked_docs_split hnodup hbound, List.map_append]
  congr 1
  rw [List.map_map]
  exact List.map_congr_left (fun y _ => markIf_legacyId _ y)

theorem marked_nextId {st : Store} {p t : String} {k uid : Nat} :
    (markObsoleteDocuments (createDocument st p t (mkRev k))
      (findObsoleteRevisions (createDocument st p t (mkRev k)) p t (mkRev k)) uid).nextId =
      st.nextId + 1 := by
  rw [markObsoleteDocuments_nextId]
  rfl

theorem marked_active_pos {st : Store} {p t : String} {k uid : Nat}
    (hnodup : (st.docs.map Doc.legacyId).Nodup)
    (hbound : ∀ d ∈ st.docs, d.legacyId < st.nextId)
    (hallow : ∀ d ∈ st.docs, d.path = p → d.title = t →
      d ∈ findObsoleteRevisions (createDocument st p t (mkRev k)) p t (mkRev k)) :
    activeFor (markObsoleteDocuments (createDocument st p t (mkRev k))
      (findObsoleteRevisions (createDocument st p t (mkRev k)) p t (mkRev k)) uid) p t =
      [⟨st.nextId, p, t, mkRev k, false⟩] := by
  rw [activeFor, marked_docs_split hnodup hbound, List.filter_append]
  have h1 : ((st.docs.map (fun x => if x.legacyId ∈ (findObsoleteRevisions (createDocument st
      p t (mkRev k)) p t (mkRev k)).map Doc.legacyId then setObsolete x else x)).filter
      (fun d => d.path == p && d.title == t && !d.isObsolete)) = [] := by
    rw [List.filter_eq_nil_iff]
    intro x hx
    obtain ⟨y, hy, rfl⟩ := List.mem_map.mp hx
    by_cases hyp : y.path = p ∧ y.title = t
    · have hyl := hallow y hy hyp.1 hyp.2
      rw [if_pos (List.mem_map_of_mem Doc.legacyId hyl)]
      simp [setObsolete]
    · intro hcon
      simp only [Bool.and_eq_true, beq_iff_eq] at hcon
      exact hyp ⟨(markIf_path _ y) ▸ hcon.1.1, (markIf_title _ y) ▸ hcon.1.2⟩
  rw [h1, List.nil_append]
  simp

theorem marked_active_neg {st : Store} {p t p2 t2 : String} {k uid : Nat}
    (hnodup : (st.docs.map Doc.legacyId).Nodup)
    (hbound : ∀ d ∈ st.docs, d.legacyId < st.nextId)
    (hpt : ¬(p2 = p ∧ t2 = t)) :
    activeFor (markObsoleteDocuments (createDocument st p t (mkRev k))
      (findObsoleteRevisions (createDocument st p t (mkRev k)) p t (mkRev k)) uid) p2 t2 =
      activeFor st p2 t2 := by
  rw [activeFor, marked_docs_split hnodup hbound, List.filter_append]
  have hinj := List.inj_on_of_nodup_map hnodup
  have hstable : ((st.docs.map (fun x => if x.legacyId ∈ (findObsoleteRevisions (createDocument
      st p t (mkRev k)) p t (mkRev k)).map Doc.legacyId then setObsolete x else x)).filter
      (fun d => d.path == p2 && d.title == t2 && !d.isObsolete)) =
      st.docs.filter (fun d => d.path == p2 && d.title == t2 && !d.isObsolete) := by
    apply filter_map_stable
    intro y hy
    by_cases hid : y.legacyId ∈ (findObsoleteRevisions (createDocument st p t (mkRev k))
      p t (mkRev k)).map Doc.legacyId
    · right
      obtain ⟨z, hz, hzi⟩ := List.mem_map.mp hid
      have hzy : z = y := hinj (lower_mem_iff.mp hz).1 hy hzi
      obtain ⟨-, -, hyp, hyt⟩ := lower_mem_iff.mp (hzy ▸ hz)
      rcases not_and_or.mp hpt with hne | hne
      · have hb1 : (y.path == p2) = false := by
          simp only [beq_eq_false_iff_ne]
          rw [hyp]
          exact fun he => hne he.symm
        have hb2 : ((if y.legacyId ∈ (findObsoleteRevisions (createDocument st p t (mkRev k))
            p t (mkRev k)).map Doc.legacyId then setObsolete y else y).path == p2) = false := by
          rw [markIf_path]
          exact hb1
        exact ⟨by rw [hb2]; rfl, by rw [hb1]; rfl⟩
      · have hb1 : (y.title == t2) = false := by
          simp only [beq_eq_false_iff_ne]
          rw [hyt]
          exact fun he => hne he.symm
        have hb2 : ((if y.legacyId ∈ (findObsoleteRevisions (createDocument st p t (mkRev k))
            p t (mkRev k)).map Doc.legacyId then setObsolete y else y).title == t2) = false := by
          rw [markIf_title]
          exact hb1
        exact ⟨by rw [hb2]; simp, by rw [hb1]; simp⟩
    · left
      exact if_neg hid
  rw [hstable]
  have hnewf : (([(⟨st.nextId, p, t, mkRev k, false⟩ : Doc)]).filter
      (fun d => d.path == p2 && d.title == t2 && !d.isObsolete)) = [] := by
    rcases not_and_or.mp hpt with hne | hne
    · have hb : ((⟨st.nextId, p, t, mkRev k, false⟩ : Doc).path == p2) = false := by
        simp only [beq_eq_false_iff_ne]
        exact fun he => hne he.symm
      simp [List.filter, hb]
    · have hb : ((⟨st.nextId, p, t, mkRev k, false⟩ : Doc).title == t2) = false := by
        simp only [beq_eq_false_iff_ne]
        exact fun he => hne he.symm
      simp [List.filter, hb]
  rw [hnewf, List.append_nil]
  rfl

theorem storeInv_ingest {st : Store} {ksOf : String → String → List Nat} {p t : String}
    {k uid : Nat} (hinv : StoreInv st ksOf) (hmax : ∀ q ∈ ksOf p t, q ≤ k) :
    StoreInv (ingest st p t (mkRev k) uid) (addK ksOf p t k) := by
  obtain ⟨hA, hB, hC, hNodup, hBound⟩ := hinv
  cases hf : getDocumentByPathAndTitleAndRevision st p t (mkRev k) with
  | some d0 =>
    have hst : ingest st p t (mkRev k) uid = st := by rw [ingest, hf]
    rw [hst]
    have hkin : k ∈ ksOf p t := by
      have hmem := List.mem_of_find?_eq_some hf
      have hpred := List.find?_some hf
      simp only [Bool.and_eq_true, beq_iff_eq] at hpred
      exact (hB p t k).mpr ⟨d0, hmem, hpred.1.1, hpred.1.2, hpred.2⟩
    refine ⟨?_, ?_, ?_, hNodup, hBound⟩
    · intro d hd
      obtain ⟨kd, hrev, hin⟩ := hA d hd
      refine ⟨kd, hrev, ?_⟩
      simp only [addK]
      by_cases hpt : d.path = p ∧ d.title = t
      · rw [if_pos hpt]; exact List.mem_append_left _ hin
      · rw [if_neg hpt]; exact hin
    · intro p' t' k'
      simp only [addK]
      by_cases hpt : p' = p ∧ t' = t
      · rw [if_pos hpt]
        obtain ⟨rfl, rfl⟩ := hpt
        constructor
        · intro hk'
          rcases List.mem_append.mp hk' with hk' | hk'
          · exact (hB p' t' k').mp hk'
          · rw [List.mem_singleton.mp hk']
            exact (hB p' t' k).mp hkin
        · intro he
          exact List.mem_append_left _ ((hB p' t' k').mpr he)
      · rw [if_neg hpt]; exact hB p' t' k'
    · intro p' t'
      obtain ⟨hc1, hc2, hc3⟩ := hC p' t'
      simp only [addK]
      by_cases hpt : p' = p ∧ t' = t
      · rw [if_pos hpt]
        obtain ⟨rfl, rfl⟩ := hpt
        refine ⟨hc1, ?_, ?_⟩
        · intro d hd
          obtain ⟨kd, hrev, hkd, hmaxd⟩ := hc2 d hd
          refine ⟨kd, hrev, List.mem_append_left _ hkd, ?_⟩
          intro q hq
          rcases List.mem_append.mp hq with hq | hq
          · exact hmaxd q hq
          · rw [List.mem_singleton.mp hq]
            exact hmaxd k hkin
        · intro _
          exact hc3 (by intro hnil; rw [hnil] at hkin; cases hkin)
      · rw [if_neg hpt]; exact ⟨hc1, hc2, hc3⟩
  | none =>
    rw [ingest_none_case hf]
    have hnotin : k ∉ ksOf p t := by
      intro hk
      obtain ⟨d, hd, h1, h2, h3⟩ := (hB p t k).mp hk
      have hs : (getDocumentByPathAndTitleAndRevision st p t (mkRev k)).isSome =
          true := getDoc_isSome_iff.mpr ⟨d, hd, h1, h2, h3⟩
      rw [hf] at hs; cases hs
    have hstrict : ∀ q ∈ ksOf p t, q < k := fun q hq =>
      lt_of_le_of_ne (hmax q hq) (fun he => hnotin (he ▸ hq))
    have hallow : ∀ d ∈ st.docs, d.path = p → d.title = t →
        d ∈ findObsoleteRevisions (createDocument st p t (mkRev k)) p t (mkRev k) := by
      intro d hd hp2 ht2
      obtain ⟨kd, hrev, hkd⟩ := hA d hd
      rw [hp2, ht2] at hkd
      rw [lower_mem_iff]
      refine ⟨hd, ?_, hp2, ht2⟩
      rw [hrev, revNumOf_mkRev]
      simp [revLtB, hstrict kd hkd]
    refine ⟨?_, ?_, ?_, ?_, ?_⟩
    · -- every stored document carries an ingested revision
      intro x hx
      rcases marked_mem_forward hNodup hBound hx with ⟨y, hy, hxp, hxt, hxr, -⟩ | rfl
      · obtain ⟨kd, hrev, hin⟩ := hA y hy
        refine ⟨kd, by rw [hxr]; exact hrev, ?_⟩
        rw [hxp, hxt]
        simp only [addK]
        by_cases hpt : y.path = p ∧ y.title = t
        · rw [if_pos hpt]; exact List.mem_append_left _ hin
        · rw [if_neg hpt]; exact hin
      · refine ⟨k, rfl, ?_⟩
        show k ∈ addK ksOf p t k p t
        simp [addK]
    · -- recorded revisions and stored triples correspond
      intro p2 t2 k2
      simp only [addK]
      by_cases hpt : p2 = p ∧ t2 = t
      · rw [if_pos hpt]
        obtain ⟨rfl, rfl⟩ := hpt
        constructor
        · intro hk2
          rcases List.mem_append.mp hk2 with hk2 | hk2
          · obtain ⟨y, hy, h1, h2, h3⟩ := (hB p2 t2 k2).mp hk2
            obtain ⟨x, hx, hxp, hxt, hxr⟩ := marked_mem_backward hNodup hBound y hy
            exact ⟨x, hx, hxp.trans h1, hxt.trans h2, hxr.trans h3⟩
          · rw [List.mem_singleton.mp hk2]
            exact ⟨⟨st.nextId, p2, t2, mkRev k, false⟩,
              marked_newDoc_mem hNodup hBound, rfl, rfl, rfl⟩
        · rintro ⟨x, hx, h1, h2, h3⟩
          rcases marked_mem_forward hNodup hBound hx with ⟨y, hy, hxp, hxt, hxr, -⟩ | rfl
          · refine List.mem_append_left _ ((hB p2 t2 k2).mpr
              ⟨y, hy, hxp ▸ h1, hxt ▸ h2, hxr ▸ h3⟩)
          · have hk2 : k = k2 := mkRev_injective h3
            rw [← hk2]
            exact List.mem_append_right _ (List.mem_singleton.mpr rfl)
      · rw [if_neg hpt]
        constructor
        · intro hk2
          obtain ⟨y, hy, h1, h2, h3⟩ := (hB p2 t2 k2).mp hk2
          obtain ⟨x, hx, hxp, hxt, hxr⟩ := marked_mem_backward hNodup hBound y hy
          exact ⟨x, hx, hxp.trans h1, hxt.trans h2, hxr.trans h3⟩
        · rintro ⟨x, hx, h1, h2, h3⟩
          rcases marked_mem_forward hNodup hBound hx with ⟨y, hy, hxp, hxt, hxr, -⟩ | rfl
          · exact (hB p2 t2 k2).mpr ⟨y, hy, hxp ▸ h1, hxt ▸ h2, hxr ▸ h3⟩
          · exact absurd (And.intro h1.symm h2.symm) hpt
    · -- per-pair active facts
      intro p2 t2
      by_cases hpt : p2 = p ∧ t2 = t
      · obtain ⟨rfl, rfl⟩ := hpt
        rw [marked_active_pos hNodup hBound hallow]
        refine ⟨?_, ?_, ?_⟩
        · simp
        · intro d hd
          rw [List.mem_singleton] at hd
          subst hd
          refine ⟨k, rfl, ?_, ?_⟩
          · show k ∈ addK ksOf p2 t2 k p2 t2
            simp [addK]
          · intro q hq
            have hq2 : q ∈ ksOf p2 t2 ++ [k] := by
              have he : addK ksOf p2 t2 k p2 t2 = ksOf p2 t2 ++ [k] := by simp [addK]
              rw [← he]
              exact hq
            rcases List.mem_append.mp hq2 with hq3 | hq3
            · exact hmax q hq3
            · rw [List.mem_singleton.mp hq3]
        · intro _
          rfl
      · have hks : addK ksOf p t k p2 t2 = ksOf p2 t2 := by
          simp only [addK]
          rw [if_neg hpt]
        rw [marked_active_neg hNodup hBound hpt, hks]
        exact hC p2 t2
    · -- distinct ids
      rw [marked_ids hNodup hBound]
      refine List.Nodup.append hNodup (List.nodup_singleton _) ?_
      intro i hi hi2
      obtain ⟨d, hd, hdi⟩ := List.mem_map.mp hi
      rw [List.mem_singleton] at hi2
      have := hBound d hd
      omega
    · -- bounded ids
      intro x hx
      rw [marked_nextId]
      rcases marked_mem_forward hNodup hBound hx with ⟨y, hy, -, -, -, hxi⟩ | rfl
      · have := hBound y hy
        omega
      · show st.nextId < st.nextId + 1
        omega

/- ───────────────────── alert classifier lemmas ───────────────────── -/

theorem glyphScan_stop : ∀ {cells : List Cell},
    hasGlyphB stopGlyph cells = true → hasGlyphB warnGlyph cells = false →
    glyphScan cells = some Alert.expired := by
  intro cells
  induction cells with
  | nil => intro h _; cases h
  | cons c rest ih =>
    intro hstop hwarn
    rw [hasGlyphB, List.any_cons] at hstop hwarn
    rw [Bool.or_eq_true] at hstop
    have hwarn2 := Bool.or_eq_false_iff.mp hwarn
    rw [glyphScan]
    cases hct : cellText c with
    | none =>
      simp only [hct] at hstop hwarn2 ⊢
      rcases hstop with hstop | hstop
      · cases hstop
      · exact ih hstop hwarn2.2
    | some txt =>
      simp only [hct] at hstop hwarn2 ⊢
      by_cases hs : containsSeq stopGlyph txt = true
      · rw [if_pos hs]
      · rw [if_neg hs, if_neg (by rw [hwarn2.1]; exact Bool.false_ne_true)]
        rcases hstop with hstop | hstop
        · exact absurd hstop hs
        · exact ih hstop hwarn2.2

theorem glyphScan_warn : ∀ {cells : List Cell},
    hasGlyphB warnGlyph cells = true → hasGlyphB stopGlyph cells = false →
    glyphScan cells = some Alert.warning := by
  intro cells
  induction cells with
  | nil => intro h _; cases h
  | cons c rest ih =>
    intro hwarn hstop
    rw [hasGlyphB, List.any_cons] at hwarn hstop
    rw [Bool.or_eq_true] at hwarn
    have hstop2 := Bool.or_eq_false_iff.mp hstop
    rw [glyphScan]
    cases hct : cellText c with
    | none =>
      simp only [hct] at hwarn hstop2 ⊢
      rcases hwarn with hwarn | hwarn
      · cases hwarn
      · exact ih hwarn hstop2.2
    | some txt =>
      simp only [hct] at hwarn hstop2 ⊢
      rw [if_neg (by rw [hstop2.1]; exact Bool.false_ne_true)]
      by_cases hw : containsSeq warnGlyph txt = true
      · rw [if_pos hw]
      · rcases hwarn with hwarn | hwarn
        · exact absurd hwarn hw
        · rw [if_neg hw]
          exact ih hwarn hstop2.2

theorem storeInv_empty : StoreInv emptyStore (fun _ _ => []) := by
  refine ⟨?_, ?_, ?_, ?_, ?_⟩
  · intro d hd; cases hd
  · intro p t k
    constructor
    · intro h; cases h
    · rintro ⟨d, hd, -⟩; cases hd
  · intro p t
    refine ⟨?_, ?_, ?_⟩
    · simp [activeFor, emptyStore]
    · intro d hd; simp [activeFor, emptyStore] at hd
    · intro h; exact absurd rfl h
  · simp [emptyStore]
  · intro d hd; cases hd

theorem storeInv_fold : ∀ (seq : List (String × String × Nat)) (st : Store)
    (ksOf : String → String → List Nat) (uid : Nat),
    StoreInv st ksOf →
    (∀ x ∈ seq, ∀ q ∈ ksOf x.1 x.2.1, q ≤ x.2.2) →
    PairSorted seq →
    StoreInv (seq.foldl (fun acc x => ingest acc x.1 x.2.1 (mkRev x.2.2) uid) st)
      (fun a b => ksOf a b ++ ingestedKs seq a b) := by
  intro seq
  induction seq with
  | nil =>
    intro st ksOf uid hinv _ _
    have he : (fun a b => ksOf a b ++ ingestedKs [] a b) = ksOf := by
      funext a b
      simp [ingestedKs]
    rw [List.foldl_nil, he]
    exact hinv
  | cons x seq ih =>
    intro st ksOf uid hinv hbnd hsorted
    rw [List.foldl_cons]
    have hsorted2 := List.pairwise_cons.mp hsorted
    have hstep := @storeInv_ingest st ksOf x.1 x.2.1 x.2.2 uid hinv
      (hbnd x (List.mem_cons_self x seq))
    have hbnd2 : ∀ y ∈ seq, ∀ q ∈ addK ksOf x.1 x.2.1 x.2.2 y.1 y.2.1, q ≤ y.2.2 := by
      intro y hy q hq
      simp only [addK] at hq
      by_cases hpt : y.1 = x.1 ∧ y.2.1 = x.2.1
      · rw [if_pos hpt] at hq
        rcases List.mem_append.mp hq with hq | hq
        · exact hbnd y (List.mem_cons_of_mem x hy) q hq
        · rw [List.mem_singleton.mp hq]
          exact hsorted2.1 y hy hpt.1.symm hpt.2.symm
      · rw [if_neg hpt] at hq
        exact hbnd y (List.mem_cons_of_mem x hy) q hq
    have hres := ih (ingest st x.1 x.2.1 (mkRev x.2.2) uid) (addK ksOf x.1 x.2.1 x.2.2) uid
      hstep hbnd2 hsorted2.2
    have he : (fun a b => addK ksOf x.1 x.2.1 x.2.2 a b ++ ingestedKs seq a b) =
        (fun a b => ksOf a b ++ ingestedKs (x :: seq) a b) := by
      funext a b
      simp only [addK]
      by_cases hpt : a = x.1 ∧ b = x.2.1
      · have hcond : (x.1 == a && x.2.1 == b) = true := by
          simp [hpt.1.symm, hpt.2.symm]
        rw [if_pos hpt]
        simp [ingestedKs, List.filter_cons, hcond]
      · have hcond : (x.1 == a && x.2.1 == b) = false := by
          rcases not_and_or.mp hpt with h | h
          · have hb : (x.1 == a) = false := by
              rw [beq_eq_false_iff_ne]
              exact fun he2 => h he2.symm
            simp [hb]
          · have hb : (x.2.1 == b) = false := by
              rw [beq_eq_false_iff_ne]
              exact fun he2 => h he2.symm
            simp [hb]
        rw [if_neg hpt]
        simp [ingestedKs, List.filter_cons, hcond]
    rw [← he]
    exact hres

/- ───────────────────── secure-link lemmas ───────────────────── -/

theorem notComma_comma : notComma (',') = false := by decide

theorem notComma_digit {c : Char} (h : c.isDigit = true) : notComma c = true := by
  cases hc : c == (',')
  · simp [notComma, hc]
  · have hceq : c = (',') := eq_of_beq hc
    subst hceq
    exact absurd h (by decide)

theorem splitComma_append (l r : List Char) (h : ∀ c ∈ l, notComma c = true) :
    splitComma (l ++ ',' :: r) = some (l, r) := by
  simp only [splitComma, dropWhile_append_of_all notComma l (',') r h notComma_comma,
    takeWhile_append_of_all notComma l (',') r h notComma_comma]

theorem decodeNat_natDigits (n : Nat) : decodeNat (natDigits n) = some n := by
  have hall : (natDigits n).all Char.isDigit = true := by
    rw [List.all_eq_true]
    exact fun c hc => natDigits_all_digit n hc
  rw [decodeNat, if_pos ⟨natDigits_ne_nil n, hall⟩, digitsVal_natDigits]

theorem decodeDocId_encodeDocId (d : Option Nat) :
    decodeDocId (encodeDocId d) = some d := by
  cases d with
  | none => rw [encodeDocId, decodeDocId, if_pos rfl]
  | some n =>
    have hne : natDigits n ≠ String.toList ("null") := by
      intro h
      have hmem : ('n') ∈ natDigits n := by rw [h]; decide
      exact absurd (natDigits_all_digit n hmem) (by decide)
    rw [encodeDocId, decodeDocId, if_neg hne, decodeNat_natDigits]
    rfl

theorem decodePayload_encodePayload (d : TokenData) :
    decodePayload (encodePayload d) = some d := by
  obtain ⟨docId, uid, act, exp⟩ := d
  have hd1 : ∀ c ∈ encodeDocId docId, notComma c = true := by
    cases docId with
    | none =>
      have hall : (String.toList ("null")).all notComma = true := by decide
      exact fun c hc => List.all_eq_true.mp hall c hc
    | some n => exact fun c hc => notComma_digit (natDigits_all_digit n hc)
  have hd2 : ∀ c ∈ natDigits uid, notComma c = true :=
    fun c hc => notComma_digit (natDigits_all_digit uid hc)
  have hd3 : ∀ c ∈ (natDigits exp).reverse, notComma c = true :=
    fun c hc => notComma_digit (natDigits_all_digit exp (List.mem_reverse.mp hc))
  have hrev : (act ++ ',' :: natDigits exp).reverse =
      (natDigits exp).reverse ++ ',' :: act.reverse := by
    rw [List.reverse_append, List.reverse_cons, List.append_assoc, List.singleton_append]
  simp only [encodePayload, decodePayload,
    splitComma_append (encodeDocId docId)
      (natDigits uid ++ ',' :: (act ++ ',' :: natDigits exp)) hd1,
    splitComma_append (natDigits uid) (act ++ ',' :: natDigits exp) hd2,
    hrev,
    splitComma_append ((natDigits exp).reverse) (act.reverse) hd3,
    List.reverse_reverse, decodeDocId_encodeDocId, decodeNat_natDigits]

/- ───────────────────── drive listing lemmas ───────────────────── -/

theorem splitLast_eq : ∀ (l : List Nat), l ≠ [] →
    ∃ init last, splitLast l = some (init, last) ∧ l = init ++ [last] := by
  intro l
  induction l with
  | nil => intro h; exact absurd rfl h
  | cons x xs ih =>
    intro _
    cases xs with
    | nil => exact ⟨[], x, rfl, rfl⟩
    | cons y ys =>
      obtain ⟨init, last, hs, hd⟩ := ih (by simp)
      refine ⟨x :: init, last, ?_, ?_⟩
      · simp only [splitLast, hs]
      · rw [List.cons_append, ← hd]

theorem pageLoop_eq : ∀ (pages : List (List GFile)) (pending : List Nat) (files : List GFile),
    pageLoop pages pending files =
      (pending ++ (pages.flatten.filter (fun f => f.mimeType == folderMime)).map GFile.id,
       files ++ pages.flatten.filter (fun f => !(f.mimeType == folderMime))) := by
  intro pages
  induction pages with
  | nil => intro pending files; simp [pageLoop]
  | cons page rest ih =>
    intro pending files
    rw [pageLoop, ih]
    simp [List.filter_append, List.map_append, List.append_assoc]

theorem listLoop_spec (drive : Nat → List (List GFile)) :
    ∀ (fuel : Nat) (pending : List Nat) (files L : List GFile),
    listLoop drive fuel pending files = some L →
    (∀ f ∈ files, ¬ f.mimeType = folderMime) →
    ((∀ f ∈ L, ¬ f.mimeType = folderMime) ∧
     (∀ f, f ∈ L ↔ (f ∈ files ∨ ∃ fid ∈ pending, ReachFile drive fid f))) := by
  intro fuel
  induction fuel with
  | zero =>
    intro pending files L hrun hfiles
    cases pending with
    | nil =>
      rw [listLoop] at hrun
      injection hrun with h
      subst h
      refine ⟨hfiles, fun f => ?_⟩
      constructor
      · exact fun hf => Or.inl hf
      · rintro (hf | ⟨fid, hfid, -⟩)
        · exact hf
        · cases hfid
    | cons p ps =>
      rw [listLoop] at hrun
      cases hrun
  | succ fuel ih =>
    intro pending files L hrun hfiles
    cases pending with
    | nil =>
      rw [listLoop] at hrun
      injection hrun with h
      subst h
      refine ⟨hfiles, fun f => ?_⟩
      constructor
      · exact fun hf => Or.inl hf
      · rintro (hf | ⟨fid, hfid, -⟩)
        · exact hf
        · cases hfid
    | cons p ps =>
      obtain ⟨init, current, hsplit, hdecomp⟩ := splitLast_eq (p :: ps) (by simp)
      rw [listLoop] at hrun
      simp only [hsplit, pageLoop_eq] at hrun
      have hfiles2 : ∀ f ∈ files ++
          (drive current).flatten.filter (fun f => !(f.mimeType == folderMime)),
          ¬ f.mimeType = folderMime := by
        intro f hf
        rcases List.mem_append.mp hf with hf | hf
        · exact hfiles f hf
        · have h2 := (List.mem_filter.mp hf).2
          rw [Bool.not_eq_true', beq_eq_false_iff_ne] at h2
          exact h2
      have hmain := ih _ _ _ hrun hfiles2
      refine ⟨hmain.1, fun f => ?_⟩
      rw [hmain.2 f]
      constructor
      · rintro (hf | ⟨fid, hfid, hr⟩)
        · rcases List.mem_append.mp hf with hf | hf
          · exact Or.inl hf
          · have hmem := (List.mem_filter.mp hf).1
            have hmime : ¬ f.mimeType = folderMime := by
              have h2 := (List.mem_filter.mp hf).2
              rw [Bool.not_eq_true', beq_eq_false_iff_ne] at h2
              exact h2
            refine Or.inr ⟨current, ?_, ReachFile.here hmem hmime⟩
            rw [hdecomp]
            exact List.mem_append.mpr (Or.inr (by simp))
        · rcases List.mem_append.mp hfid with hfid | hfid
          · refine Or.inr ⟨fid, ?_, hr⟩
            rw [hdecomp]
            exact List.mem_append.mpr (Or.inl hfid)
          · obtain ⟨g, hg, hgid⟩ := List.mem_map.mp hfid
            have hgmem := (List.mem_filter.mp hg).1
            have hgmime : g.mimeType = folderMime := eq_of_beq (List.mem_filter.mp hg).2
            subst hgid
            refine Or.inr ⟨current, ?_, ReachFile.step hgmem hgmime hr⟩
            rw [hdecomp]
            exact List.mem_append.mpr (Or.inr (by simp))
      · rintro (hf | ⟨fid, hfid, hr⟩)
        · exact Or.inl (List.mem_append.mpr (Or.inl hf))
        · rw [hdecomp] at hfid
          rcases List.mem_append.mp hfid with hfid | hfid
          · exact Or.inr ⟨fid, List.mem_append.mpr (Or.inl hfid), hr⟩
          · have hfidc : fid = current := by simpa using hfid
            subst hfidc
            cases hr with
            | here hmem hmime =>
              refine Or.inl (List.mem_append.mpr (Or.inr ?_))
              refine List.mem_filter.mpr ⟨hmem, ?_⟩
              rw [Bool.not_eq_true', beq_eq_false_iff_ne]
              exact hmime
            | step hgmem hgmime hr2 =>
              refine Or.inr ⟨_, List.mem_append.mpr (Or.inr (List.mem_map.mpr
                ⟨_, List.mem_filter.mpr ⟨hgmem, beq_iff_eq.mpr hgmime⟩, rfl⟩)), hr2⟩

end IsoDoc

namespace IsoDoc

/-- Claim C3: for every well-formed filename of the shape
`N.N_Title_Rev.K_YYYY-MM-DD.ext` the parse functions return exactly the dotted
path, the trimmed title, the string `Rev.` followed by the integer `K`, the
date string, and the extension lowercased; and for every string missing a
required segment (no `Rev.` marker, non-numeric path, or missing date) each
parse function returns `none`. -/
theorem C3_filename_parser_spec :
    (∀ p t k d e : List Char,
      isPathLang p = true →
      t ≠ [] → (∀ c ∈ t, titleChar c = true) →
      k ≠ [] → (∀ c ∈ k, Char.isDigit c = true) →
      isDateShape d = true →
      e ≠ [] → (∀ c ∈ e, wordChar c = true) →
        parseISOPath (String.mk (mkFileName p t k d e)) = some (String.mk p) ∧
        parseTitle (String.mk (mkFileName p t k d e)) = some (String.mk (trimSpaces t)) ∧
        parseRevision (String.mk (mkFileName p t k d e)) = some (String.mk (revMarker ++ k)) ∧
        parseDate (String.mk (mkFileName p t k d e)) = some (String.mk d) ∧
        parseFileType (String.mk (mkFileName p t k d e)) =
          some (String.mk (e.map Char.toLower))) ∧
    (∀ s : String, containsSeq revMarker s.toList = false →
        parseISOPath s = none ∧ parseTitle s = none ∧ parseRevision s = none ∧
        parseDate s = none ∧ parseFileType s = none) ∧
    (∀ s : String, (∀ c cs', s.toList = c :: cs' → c.isDigit = false) →
        parseISOPath s = none ∧ parseTitle s = none ∧ parseRevision s = none ∧
        parseDate s = none ∧ parseFileType s = none) ∧
    (∀ s : String, containsDateShape s.toList = false →
        parseISOPath s = none ∧ parseTitle s = none ∧ parseRevision s = none ∧
        parseDate s = none ∧ parseFileType s = none) := by
  refine ⟨?_, ?_, ?_, ?_⟩
  · intro p t k d e hp ht htc hk hkc hd he hec
    have hm : matchFileName (mkFileName p t k d e) = some ⟨p, t, k, d, e⟩ :=
      matchFileName_mk p t k d e hp ht htc hk hkc hd he hec
    refine ⟨?_, ?_, ?_, ?_, ?_⟩ <;>
      simp [parseISOPath, parseTitle, parseRevision, parseDate, parseFileType,
        String.toList, hm]
  · intro s hs
    have hm : matchFileName s.toList = none := matchFileName_none_of_noRev hs
    simp only [String.toList] at hm
    refine ⟨?_, ?_, ?_, ?_, ?_⟩ <;>
      simp [parseISOPath, parseTitle, parseRevision, parseDate, parseFileType, hm]
  · intro s hs
    have hm : matchFileName s.toList = none := matchFileName_none_of_headNotDigit hs
    simp only [String.toList] at hm
    refine ⟨?_, ?_, ?_, ?_, ?_⟩ <;>
      simp [parseISOPath, parseTitle, parseRevision, parseDate, parseFileType, hm]
  · intro s hs
    have hm : matchFileName s.toList = none := matchFileName_none_of_noDate hs
    simp only [String.toList] at hm
    refine ⟨?_, ?_, ?_, ?_, ?_⟩ <;>
      simp [parseISOPath, parseTitle, parseRevision, parseDate, parseFileType, hm]

/-- Witness for C3: the acceptance half evaluated at the specification example
`8.2.1_Gestione Ordini_Rev.3_2024-01-15.xlsx`, and the rejection half at
`Gestione Ordini.xlsx` (no `Rev.` marker, non-numeric path) and at a filename
with no date segment. -/
theorem C3_filename_parser_spec_witness :
    (parseISOPath (String.mk (mkFileName (String.toList ("8.2.1"))
        (String.toList ("Gestione Ordini")) (String.toList ("3"))
        (String.toList ("2024-01-15")) (String.toList ("xlsx")))) =
      some (String.mk (String.toList ("8.2.1")))) ∧
    (parseTitle ("Gestione Ordini.xlsx") = none) ∧
    (parseRevision ("Gestione Ordini.xlsx") = none) ∧
    (parseDate ("8.2_Doc_Rev.3.xlsx") = none) := by
  refine ⟨?_, ?_, ?_, ?_⟩
  · exact (C3_filename_parser_spec.1 (String.toList ("8.2.1"))
      (String.toList ("Gestione Ordini")) (String.toList ("3"))
      (String.toList ("2024-01-15")) (String.toList ("xlsx"))
      (by decide) (by decide) (by decide) (by decide) (by decide) (by decide)
      (by decide) (by decide)).1
  · exact (C3_filename_parser_spec.2.1 ("Gestione Ordini.xlsx") (by decide)).2.1
  · refine (C3_filename_parser_spec.2.2.1 ("Gestione Ordini.xlsx") ?_).2.2.1
    intro c cs' h
    have hh : ("Gestione Ordini.xlsx").toList.head? = some 'G' := by decide
    rw [h] at hh
    simp only [List.head?_cons, Option.some.injEq] at hh
    subst hh
    decide
  · exact (C3_filename_parser_spec.2.2.2 ("8.2_Doc_Rev.3.xlsx") (by decide)).2.2.2.1

/-- Counterexample to claim C4: the source pattern separates segments with
underscores only, so the hyphen-separated filename the claim says is accepted
is in fact rejected, and the title class does contain the hyphen the claim
says is excluded. -/
theorem C4_pattern_counterexample :
    parseISOPath ("8.2-Title-Rev.3-2024-01-15.xlsx") = none ∧
    parseTitle ("8.2_My-Title_Rev.3_2024-01-15.xlsx") = some ("My-Title") := by
  constructor <;> decide

/-- Claim C4 (amended): the accepted language is the underscore-separated
pattern `^(\d+(\.\d+)*)_(title)_Rev\.(\d+)_(\d{4}-\d{2}-\d{2})\.(ext)$` with
Unicode-aware title; every accepted filename decomposes along underscores, the
title segment may not contain the underscore separator (though it may contain
a hyphen), and hyphen-separated variants are rejected. -/
theorem C4_pattern_amended :
    (∀ cs : List Char, ∀ r : ParsedName, matchFileName cs = some r →
      cs = r.isoPath ++ '_' :: (r.title ++ '_' :: (revMarker ++
        (r.revDigits ++ '_' :: (r.date ++ '.' :: r.ext)))) ∧ '_' ∉ r.title) ∧
    parseISOPath ("8.2-Title-Rev.3-2024-01-15.xlsx") = none ∧
    parseISOPath ("8.2_Title_Rev.3_2024-01-15.xlsx") = some ("8.2") ∧
    parseTitle ("8.2_My-Title_Rev.3_2024-01-15.xlsx") = some ("My-Title") ∧
    parseTitle ("8.2_My_Title_Rev.3_2024-01-15.xlsx") = none := by
  refine ⟨?_, by decide, by decide, by decide, by decide⟩
  intro cs r hm
  obtain ⟨hdec, -, -, htc, -⟩ := matchFileName_eq_some hm
  refine ⟨by rw [hdec]; rfl, ?_⟩
  intro hmem
  have := htc _ hmem
  simp [titleChar, isUnicodeLetter, isUnicodeNumber] at this

/-- Counterexample to claim C1: the obsolescence resolver only marks strictly
lower revisions at ingestion time, so when a lower revision arrives after a
higher one (`Rev.2` then `Rev.1` for the same pair), nothing marks the lower
one and the pair ends with two non-obsolete documents. -/
theorem C1_monotonicity_counterexample :
    (activeFor (runIngest [(("8.2"), ("T"), 2), (("8.2"), ("T"), 1)] 7)
      ("8.2") ("T")).length = 2 := by
  decide

/-- Claim C1 (amended): the obsolescence invariant holds for every ingestion
sequence in which, for each pair, revision numbers arrive in non-decreasing
order: afterwards the pair has at most one non-obsolete document, that
document carries the maximum revision ingested for the pair, and if anything
was ingested for the pair exactly one non-obsolete document remains. -/
theorem C1_monotonicity_amended (seq : List (String × String × Nat)) (uid : Nat)
    (p t : String) (hsorted : PairSorted seq) :
    ((activeFor (runIngest seq uid) p t).length ≤ 1) ∧
    (∀ d ∈ activeFor (runIngest seq uid) p t,
      ∃ k, d.revision = mkRev k ∧ k ∈ ingestedKs seq p t ∧
        ∀ q ∈ ingestedKs seq p t, q ≤ k) ∧
    (ingestedKs seq p t ≠ [] → (activeFor (runIngest seq uid) p t).length = 1) := by
  have h := storeInv_fold seq emptyStore (fun _ _ => []) uid storeInv_empty
    (by intro x hx q hq; cases hq) hsorted
  obtain ⟨-, -, hc, -, -⟩ := h
  have hc2 := hc p t
  simpa [runIngest] using hc2

/-- Witness for C1 (amended): the in-order sequence `Rev.1` then `Rev.2` for
one pair leaves exactly one non-obsolete document. -/
theorem C1_monotonicity_amended_witness :
    ((activeFor (runIngest [(("8.2"), ("T"), 1), (("8.2"), ("T"), 2)] 7)
      ("8.2") ("T")).length ≤ 1) ∧
    (ingestedKs [(("8.2"), ("T"), 1), (("8.2"), ("T"), 2)] ("8.2") ("T") ≠ [] →
      (activeFor (runIngest [(("8.2"), ("T"), 1), (("8.2"), ("T"), 2)] 7)
        ("8.2") ("T")).length = 1) := by
  have h := C1_monotonicity_amended [(("8.2"), ("T"), 1), (("8.2"), ("T"), 2)] 7
    ("8.2") ("T") (by unfold PairSorted; decide)
  exact ⟨h.1, h.2.2⟩

/-- Claim C10: `findObsoleteRevisions` returns exactly the stored documents of
the pair whose parsed revision number is strictly lower, with no filtering on
`isObsolete`; consequently ingesting a fresh highest revision while lower
revisions are already obsolete re-marks each already-obsolete lower revision
and appends one additional `"revision"` audit log entry per such document. -/
theorem C10_obsolete_refilter :
    (∀ (st : Store) (p t rev : String) (d : Doc),
      d ∈ findObsoleteRevisions st p t rev ↔
        d ∈ st.docs ∧ d.path = p ∧ d.title = t ∧
          ∃ a b : Int, revNumOf d.revision = some a ∧ revNumOf rev = some b ∧ a < b) ∧
    (∀ (st : Store) (p t : String) (k u : Nat),
      getDocumentByPathAndTitleAndRevision st p t (mkRev k) = none →
      (st.docs.map Doc.legacyId).Nodup →
      (∀ d ∈ st.docs, d.legacyId < st.nextId) →
      ((ingest st p t (mkRev k) u).logs.length = st.logs.length +
        (st.docs.filter (fun d => revLtB (revNumOf d.revision) (some ((k : Int))) &&
          (d.path == p && d.title == t))).length) ∧
      (∀ d ∈ st.docs, d.path = p → d.title = t →
        ∀ a : Int, revNumOf d.revision = some a → a < (k : Int) →
          ((⟨u, ("revision"), d.legacyId⟩ : LogEntry) ∈ (ingest st p t (mkRev k) u).logs ∧
           ∃ d2 ∈ (ingest st p t (mkRev k) u).docs,
             d2.legacyId = d.legacyId ∧ d2.isObsolete = true))) := by
  constructor
  · intro st p t rev d
    exact mem_findObsoleteRevisions_iff
  · intro st p t k u hfresh hnodup hbound
    rw [ingest_none_case hfresh]
    have hlower : findObsoleteRevisions (createDocument st p t (mkRev k)) p t (mkRev k) =
        st.docs.filter (fun d => revLtB (revNumOf d.revision) (some ((k : Int))) &&
          (d.path == p && d.title == t)) := by
      rw [findObsoleteRevisions, getDocumentsByPathAndTitle]
      show ((st.docs ++ [(⟨st.nextId, p, t, mkRev k, false⟩ : Doc)]).filter
          (fun d => d.path == p && d.title == t)).filter
          (fun d => revLtB (revNumOf d.revision) (revNumOf (mkRev k))) = _
      rw [List.filter_append, List.filter_append, List.filter_filter]
      have hnew : (List.filter (fun d => d.path == p && d.title == t)
          [(⟨st.nextId, p, t, mkRev k, false⟩ : Doc)]).filter
          (fun d => revLtB (revNumOf d.revision) (revNumOf (mkRev k))) = [] := by
        simp [List.filter, revLtB_mkRev]
      rw [hnew, List.append_nil]
      apply List.filter_congr
      intro d _
      rw [revNumOf_mkRev]
    have hdocs1 : ((createDocument st p t (mkRev k)).docs.map Doc.legacyId).Nodup := by
      show ((st.docs ++ [(⟨st.nextId, p, t, mkRev k, false⟩ : Doc)]).map Doc.legacyId).Nodup
      rw [List.map_append]
      refine List.Nodup.append hnodup (List.nodup_singleton _) ?_
      intro x hx hx2
      simp only [List.map_cons, List.map_nil, List.mem_singleton] at hx2
      obtain ⟨d, hd, hdx⟩ := List.mem_map.mp hx
      have := hbound d hd
      omega
    constructor
    · rw [markObsoleteDocuments_logs, hlower]
      show (st.logs ++ _).length = _
      rw [List.length_append, List.length_map]
    · intro d hd hp ht a hnum hak
      have hdlow : d ∈ findObsoleteRevisions (createDocument st p t (mkRev k)) p t (mkRev k) := by
        rw [mem_findObsoleteRevisions_iff]
        exact ⟨List.mem_append_left _ hd, hp, ht, a, (k : Int), hnum, revNumOf_mkRev k, hak⟩
      constructor
      · rw [markObsoleteDocuments_logs]
        refine List.mem_append_right _ ?_
        exact List.mem_map_of_mem _ hdlow
      · have hdocs : (markObsoleteDocuments (createDocument st p t (mkRev k))
            (findObsoleteRevisions (createDocument st p t (mkRev k)) p t (mkRev k)) u).docs =
            (createDocument st p t (mkRev k)).docs.map
              (fun x => if x.legacyId ∈ (findObsoleteRevisions (createDocument st p t (mkRev k))
                p t (mkRev k)).map Doc.legacyId then setObsolete x else x) := by
          rw [markObsoleteDocuments_docs]
          exact foldMark_eq_map _ hdocs1
        rw [hdocs]
        have hmem : d.legacyId ∈ (findObsoleteRevisions (createDocument st p t (mkRev k))
            p t (mkRev k)).map Doc.legacyId := List.mem_map_of_mem _ hdlow
        refine ⟨setObsolete d, ?_, rfl, rfl⟩
        have hd1 : d ∈ (createDocument st p t (mkRev k)).docs := List.mem_append_left _ hd
        refine List.mem_map.mpr ⟨d, hd1, ?_⟩
        exact if_pos hmem

/-- Witness for C10: a store holding `Rev.1` (already obsolete) and `Rev.2`
(active) for the pair, ingesting the fresh `Rev.3`: two new log entries, and
the already-obsolete `Rev.1` document is re-marked with a fresh entry. -/
theorem C10_obsolete_refilter_witness :
    ((ingest ⟨[⟨0, ("8.2"), ("T"), ("Rev.1"), true⟩, ⟨1, ("8.2"), ("T"), ("Rev.2"), false⟩],
        [], 2⟩ ("8.2") ("T") (mkRev 3) 9).logs.length =
      ([] : List LogEntry).length +
      (([⟨0, ("8.2"), ("T"), ("Rev.1"), true⟩, ⟨1, ("8.2"), ("T"), ("Rev.2"), false⟩] :
          List Doc).filter (fun d => revLtB (revNumOf d.revision) (some ((3 : Nat) : Int)) &&
          (d.path == ("8.2") && d.title == ("T")))).length) ∧
    ((⟨9, ("revision"), 0⟩ : LogEntry) ∈
      (ingest ⟨[⟨0, ("8.2"), ("T"), ("Rev.1"), true⟩, ⟨1, ("8.2"), ("T"), ("Rev.2"), false⟩],
        [], 2⟩ ("8.2") ("T") (mkRev 3) 9).logs) ∧
    (∃ d2 ∈ (ingest ⟨[⟨0, ("8.2"), ("T"), ("Rev.1"), true⟩,
        ⟨1, ("8.2"), ("T"), ("Rev.2"), false⟩], [], 2⟩ ("8.2") ("T") (mkRev 3) 9).docs,
      d2.legacyId = 0 ∧ d2.isObsolete = true) := by
  have h := C10_obsolete_refilter.2
    ⟨[⟨0, ("8.2"), ("T"), ("Rev.1"), true⟩, ⟨1, ("8.2"), ("T"), ("Rev.2"), false⟩], [], 2⟩
    ("8.2") ("T") 3 9 (by decide) (by decide) (by decide)
  refine ⟨h.1, ?_, ?_⟩
  · exact (h.2 ⟨0, ("8.2"), ("T"), ("Rev.1"), true⟩ (by decide) rfl rfl 1 (by decide)
      (by decide)).1
  · obtain ⟨d2, hd2, he⟩ := (h.2 ⟨0, ("8.2"), ("T"), ("Rev.1"), true⟩ (by decide) rfl rfl 1
      (by decide) (by decide)).2
    exact ⟨d2, hd2, he⟩

/-- Claim C2: a second sync pass over a remote folder whose (parsed) file list
is unchanged leaves the repository state identical — zero new documents, zero
obsolescence markings and zero obsolescence audit log entries — because every
file's (path, title, revision) triple already exists after the first pass and
the file is skipped before `createDocument` and the obsolescence step. -/
theorem C2_resync_idempotent (st : Store) (names : List String) (u : Nat) :
    syncPassIngest (syncPassIngest st names u) names u = syncPassIngest st names u := by
  apply syncPassIngest_of_allPresent
  intro n hn r hr
  exact syncPassIngest_establishes hn hr

/-- Claim C9: `extractFolderIdFromUrl` returns the captured identifier for a
bare identifier matching `[A-Za-z0-9_-]+` and for the known URL shapes, and
returns `none` for every other input: the three specification examples hold
concretely, every nonempty all-identifier-character string is returned
verbatim, and every input that neither contains the drive host prefix nor is
made of identifier characters is rejected. -/
theorem C9_folder_id_extraction :
    (extractFolderIdFromUrl ("https://drive.google.com/drive/folders/ABC123") =
      some ("ABC123")) ∧
    (extractFolderIdFromUrl ("https://drive.google.com/open?id=XYZ") = some ("XYZ")) ∧
    (extractFolderIdFromUrl ("not a url or id!") = none) ∧
    (∀ s : String, s.toList ≠ [] → s.toList.all idChar = true →
        extractFolderIdFromUrl s = some s) ∧
    (∀ s : String, containsSeq driveHost s.toList = false →
        s.toList.all idChar = false → extractFolderIdFromUrl s = none) := by
  refine ⟨by decide, by decide, by decide, ?_, ?_⟩
  · intro s hne hall
    have hws : s.toList.all Char.isWhitespace = false := by
      cases hcs : s.toList with
      | nil => exact absurd hcs hne
      | cons c rest =>
        have hc : idChar c = true :=
          List.all_eq_true.mp hall c (by rw [hcs]; exact List.mem_cons_self c rest)
        rw [List.all_cons, idChar_not_ws hc, Bool.false_and]
    have h1 : searchFrom (matchDrivePathAt (String.toList ("folders/"))) s.toList = none := by
      cases hs : searchFrom (matchDrivePathAt (String.toList ("folders/"))) s.toList with
      | none => rfl
      | some v =>
        have := List.all_eq_true.mp hall ':'
          (colon_mem_of_contains_host (searchDrive_contains hs))
        exact absurd this (by decide)
    have h2 : searchFrom (matchDrivePathAt (String.toList ("my-drive/"))) s.toList = none := by
      cases hs : searchFrom (matchDrivePathAt (String.toList ("my-drive/"))) s.toList with
      | none => rfl
      | some v =>
        have := List.all_eq_true.mp hall ':'
          (colon_mem_of_contains_host (searchDrive_contains hs))
        exact absurd this (by decide)
    have h3 : searchFrom matchOpenIdAt s.toList = none := by
      cases hs : searchFrom matchOpenIdAt s.toList with
      | none => rfl
      | some v =>
        have := List.all_eq_true.mp hall ':'
          (colon_mem_of_contains_host (searchOpen_contains hs))
        exact absurd this (by decide)
    have hie : s.toList.isEmpty = false := by
      cases hcs : s.toList with
      | nil => exact absurd hcs hne
      | cons c rest => rfl
    have hbare : (!s.toList.isEmpty && s.toList.all idChar) = true := by
      rw [hie, hall]; rfl
    simp only [extractFolderIdFromUrl, hws, Bool.false_eq_true, if_false, h1, h2, h3,
      hbare, if_true]
  · intro s hhost hnotall
    by_cases hws : s.toList.all Char.isWhitespace = true
    · simp only [extractFolderIdFromUrl, hws, if_true]
    · have hws2 : s.toList.all Char.isWhitespace = false := by
        rwa [Bool.not_eq_true] at hws
      have h1 : searchFrom (matchDrivePathAt (String.toList ("folders/"))) s.toList = none := by
        cases hs : searchFrom (matchDrivePathAt (String.toList ("folders/"))) s.toList with
        | none => rfl
        | some v => rw [searchDrive_contains hs] at hhost; cases hhost
      have h2 : searchFrom (matchDrivePathAt (String.toList ("my-drive/"))) s.toList = none := by
        cases hs : searchFrom (matchDrivePathAt (String.toList ("my-drive/"))) s.toList with
        | none => rfl
        | some v => rw [searchDrive_contains hs] at hhost; cases hhost
      have h3 : searchFrom matchOpenIdAt s.toList = none := by
        cases hs : searchFrom matchOpenIdAt s.toList with
        | none => rfl
        | some v => rw [searchOpen_contains hs] at hhost; cases hhost
      have hbare2 : (!s.toList.isEmpty && s.toList.all idChar) = false := by
        rw [hnotall, Bool.and_false]
      simp only [extractFolderIdFromUrl, hws2, Bool.false_eq_true, if_false, h1, h2, h3,
        hbare2]

/-- Witness for C9: the bare-identifier conjunct at `ABC_123-xyz` and the
rejection conjunct at `nota url!`. -/
theorem C9_folder_id_extraction_witness :
    extractFolderIdFromUrl ("ABC_123-xyz") = some ("ABC_123-xyz") ∧
    extractFolderIdFromUrl ("nota url!") = none := by
  constructor
  · exact C9_folder_id_extraction.2.2.2.1 ("ABC_123-xyz") (by decide) (by decide)
  · exact C9_folder_id_extraction.2.2.2.2 ("nota url!") (by decide) (by decide)

/-- Witness for C4 (amended): the decomposition conjunct applied to the
concrete accepted filename `1_A_Rev.2_2024-01-15.pdf`. -/
theorem C4_pattern_amended_witness :
    String.toList ("1_A_Rev.2_2024-01-15.pdf") =
      ['1'] ++ '_' :: (['A'] ++ '_' :: (revMarker ++
        (['2'] ++ '_' :: (String.toList ("2024-01-15") ++ '.' :: String.toList ("pdf"))))) ∧
    '_' ∉ (['A'] : List Char) := by
  exact C4_pattern_amended.1 (String.toList ("1_A_Rev.2_2024-01-15.pdf"))
    ⟨['1'], ['A'], ['2'], String.toList ("2024-01-15"), String.toList ("pdf")⟩ (by decide)

/-- Claim C5: on a scanned `.xlsx` sheet whose glyph override does not fire,
`analyzeExcelContent` classifies the extracted expiry instant as `expired`
when it lies strictly before `now`, as `warning` when it lies between `now`
and thirty days after `now` inclusive (so exactly thirty days out is still
`warning`), and as `none` from thirty-one days onward; and a stop glyph in a
scanned cell (with no warning glyph present) forces `expired`, while a
warning glyph (with no stop glyph present) forces `warning`, regardless of
any date-based status. -/
theorem C5_alert_classification (now : Int) (cells : List Cell) :
    (glyphScan cells = Option.none →
      ∀ e, findExpiry cells = some e →
        (e < now → (analyzeExcelContent now true (some cells)).1 = Alert.expired) ∧
        (now ≤ e → e ≤ now + 30 * 86400000 →
          (analyzeExcelContent now true (some cells)).1 = Alert.warning) ∧
        (now + 31 * 86400000 ≤ e →
          (analyzeExcelContent now true (some cells)).1 = Alert.none)) ∧
    (hasGlyphB stopGlyph cells = true → hasGlyphB warnGlyph cells = false →
      (analyzeExcelContent now true (some cells)).1 = Alert.expired) ∧
    (hasGlyphB warnGlyph cells = true → hasGlyphB stopGlyph cells = false →
      (analyzeExcelContent now true (some cells)).1 = Alert.warning) := by
  have hfd : ∀ a : Int, Int.fdiv a 86400000 = a / 86400000 := fun a =>
    Int.fdiv_eq_ediv a (by norm_num)
  refine ⟨?_, ?_, ?_⟩
  · intro hg e he
    have h1 : (analyzeExcelContent now true (some cells)).1 =
        dateStatus now (findExpiry cells) := by
      simp [analyzeExcelContent, analyzeCells, hg]
    rw [h1, he]
    refine ⟨?_, ?_, ?_⟩
    · intro hlt
      have hneg : (e - now) / 86400000 < 0 := by omega
      show (if Int.fdiv (e - now) 86400000 < 0 then Alert.expired
            else if Int.fdiv (e - now) 86400000 ≤ 30 then Alert.warning
            else Alert.none) = Alert.expired
      rw [hfd, if_pos hneg]
    · intro h1' h2'
      have hne : ¬ ((e - now) / 86400000 < 0) := by omega
      have hle : (e - now) / 86400000 ≤ 30 := by omega
      show (if Int.fdiv (e - now) 86400000 < 0 then Alert.expired
            else if Int.fdiv (e - now) 86400000 ≤ 30 then Alert.warning
            else Alert.none) = Alert.warning
      rw [hfd, if_neg hne, if_pos hle]
    · intro h3'
      have hne : ¬ ((e - now) / 86400000 < 0) := by omega
      have hgt : ¬ ((e - now) / 86400000 ≤ 30) := by omega
      show (if Int.fdiv (e - now) 86400000 < 0 then Alert.expired
            else if Int.fdiv (e - now) 86400000 ≤ 30 then Alert.warning
            else Alert.none) = Alert.none
      rw [hfd, if_neg hne, if_neg hgt]
  · intro hs hw
    have hg := glyphScan_stop hs hw
    simp [analyzeExcelContent, analyzeCells, hg]
  · intro hw hs
    have hg := glyphScan_warn hw hs
    simp [analyzeExcelContent, analyzeCells, hg]

/-- Witness for C5: the classification applied at `now = 0` to concrete
sheets — an expiry one millisecond in the past, exactly thirty days out,
exactly thirty-one days out, a cell holding the stop glyph, and a cell
holding the warning glyph. -/
theorem C5_alert_classification_witness :
    (analyzeExcelContent 0 true (some [Cell.dateCell (-1) []])).1 = Alert.expired ∧
    (analyzeExcelContent 0 true (some [Cell.dateCell 2592000000 []])).1 = Alert.warning ∧
    (analyzeExcelContent 0 true (some [Cell.dateCell 2678400000 []])).1 = Alert.none ∧
    (analyzeExcelContent 0 true (some [Cell.strCell stopGlyph])).1 = Alert.expired ∧
    (analyzeExcelContent 0 true (some [Cell.strCell warnGlyph])).1 = Alert.warning := by
  refine ⟨?_, ?_, ?_, ?_, ?_⟩
  · exact ((C5_alert_classification 0 [Cell.dateCell (-1) []]).1 (by decide)
      (-1) (by decide)).1 (by decide)
  · exact ((C5_alert_classification 0 [Cell.dateCell 2592000000 []]).1 (by decide)
      2592000000 (by decide)).2.1 (by decide) (by decide)
  · exact ((C5_alert_classification 0 [Cell.dateCell 2678400000 []]).1 (by decide)
      2678400000 (by decide)).2.2 (by decide)
  · exact (C5_alert_classification 0 [Cell.strCell stopGlyph]).2.1 (by decide) (by decide)
  · exact (C5_alert_classification 0 [Cell.strCell warnGlyph]).2.2 (by decide) (by decide)

/-- Claim C8: for every link produced by `generateSecureLink`, feeding its
three path segments to `verifySecureLink` returns the embedded
`{documentId, userId, action, expires}` whenever the check happens at or
before the expiry instant `now + expiryMs` (in particular strictly before
it), and returns `none` whenever the check happens strictly after that
instant — even though the supplied signature is exactly the recomputed one,
because the expiry test precedes the signature test.  Uniform in the HMAC
function and the secret. -/
theorem C8_secure_link_roundtrip
    (hmac : List Char → List Char → List Char) (secret : List Char)
    (now check expiryMs : Nat) (documentId : Option Nat) (userId : Nat)
    (action : List Char) :
    (check ≤ now + expiryMs →
      verifySecureLink hmac secret check
          (generateSecureLink hmac secret now documentId userId action expiryMs).encodedData
          (generateSecureLink hmac secret now documentId userId action expiryMs).expiresSeg
          (generateSecureLink hmac secret now documentId userId action expiryMs).signature =
        some ⟨documentId, userId, action, now + expiryMs⟩) ∧
    (now + expiryMs < check →
      verifySecureLink hmac secret check
          (generateSecureLink hmac secret now documentId userId action expiryMs).encodedData
          (generateSecureLink hmac secret now documentId userId action expiryMs).expiresSeg
          (generateSecureLink hmac secret now documentId userId action expiryMs).signature =
        Option.none) := by
  have hgen1 : (generateSecureLink hmac secret now documentId userId action expiryMs).encodedData
      = encodePayload ⟨documentId, userId, action, now + expiryMs⟩ := rfl
  have hgen2 : (generateSecureLink hmac secret now documentId userId action expiryMs).expiresSeg
      = natDigits (now + expiryMs) := rfl
  have hgen3 : (generateSecureLink hmac secret now documentId userId action expiryMs).signature
      = hmac secret (encodePayload ⟨documentId, userId, action, now + expiryMs⟩ ++
          '.' :: natDigits (now + expiryMs)) := rfl
  rw [hgen1, hgen2, hgen3]
  constructor
  · intro hle
    have hnot : ¬ ((check : Int) > ((now + expiryMs : Nat) : Int)) := by omega
    have hsig : ¬ (hmac secret (encodePayload ⟨documentId, userId, action, now + expiryMs⟩ ++
        '.' :: natDigits (now + expiryMs)) ≠
        hmac secret (encodePayload ⟨documentId, userId, action, now + expiryMs⟩ ++
        '.' :: natDigits (now + expiryMs))) := fun h => h rfl
    simp only [verifySecureLink, parseIntJS_natDigits, if_neg hnot, if_neg hsig,
      decodePayload_encodePayload, Int.toNat_ofNat]
  · intro hgt
    have hpos : (check : Int) > ((now + expiryMs : Nat) : Int) := by omega
    simp only [verifySecureLink, parseIntJS_natDigits, if_pos hpos]

/-- Witness for C8: a one-hour link generated at epoch `0` for document `7`,
user `3`, action `view`, with the HMAC instantiated by concatenation —
verified successfully at `10` ms and rejected at `3600001` ms. -/
theorem C8_secure_link_roundtrip_witness :
    (verifySecureLink (fun k m => k ++ m) (String.toList ("key")) 10
        (generateSecureLink (fun k m => k ++ m) (String.toList ("key")) 0 (some 7) 3
          (String.toList ("view")) 3600000).encodedData
        (generateSecureLink (fun k m => k ++ m) (String.toList ("key")) 0 (some 7) 3
          (String.toList ("view")) 3600000).expiresSeg
        (generateSecureLink (fun k m => k ++ m) (String.toList ("key")) 0 (some 7) 3
          (String.toList ("view")) 3600000).signature =
      some ⟨some 7, 3, String.toList ("view"), 3600000⟩) ∧
    (verifySecureLink (fun k m => k ++ m) (String.toList ("key")) 3600001
        (generateSecureLink (fun k m => k ++ m) (String.toList ("key")) 0 (some 7) 3
          (String.toList ("view")) 3600000).encodedData
        (generateSecureLink (fun k m => k ++ m) (String.toList ("key")) 0 (some 7) 3
          (String.toList ("view")) 3600000).expiresSeg
        (generateSecureLink (fun k m => k ++ m) (String.toList ("key")) 0 (some 7) 3
          (String.toList ("view")) 3600000).signature =
      Option.none) := by
  constructor
  · exact (C8_secure_link_roundtrip (fun k m => k ++ m) (String.toList ("key"))
      0 10 3600000 (some 7) 3 (String.toList ("view"))).1 (by decide)
  · exact (C8_secure_link_roundtrip (fun k m => k ++ m) (String.toList ("key"))
      0 3600001 3600000 (some 7) 3 (String.toList ("view"))).2 (by decide)

/-- Counterexample to C6 as stated: the pending array is consumed with
`pending.pop()`, i.e. last-in first-out, so on a root holding subfolders
`sub1` and `sub2` (in that order) plus one plain file, the listing returns
`sub2`'s file before `sub1`'s — the reverse of the breadth-first order the
spec announces, as the spec-modelled front-consuming queue shows. -/
theorem C6_listing_counterexample :
    googleDriveListFiles driveEx 4 0 =
      some [⟨3, ("root.txt"), ("text/plain")⟩, ⟨5, ("b.txt"), ("text/plain")⟩,
            ⟨4, ("a.txt"), ("text/plain")⟩] ∧
    bfsListFiles driveEx 4 0 =
      some [⟨3, ("root.txt"), ("text/plain")⟩, ⟨4, ("a.txt"), ("text/plain")⟩,
            ⟨5, ("b.txt"), ("text/plain")⟩] ∧
    googleDriveListFiles driveEx 4 0 ≠ bfsListFiles driveEx 4 0 := by decide

/-- Claim C6 (amended): whenever the listing loop terminates within its
fuel, the returned flat list contains no folder entries and holds exactly
the non-folder files reachable from the root folder id by recursing into
subfolders — but the traversal is last-in first-out (depth-first with
sibling folders in reverse order), not breadth-first, and pages are
concatenated so only membership, not breadth-first order, is guaranteed. -/
theorem C6_listing_amended (drive : Nat → List (List GFile)) (fuel root : Nat)
    (L : List GFile) (h : googleDriveListFiles drive fuel root = some L) :
    (∀ f ∈ L, ¬ f.mimeType = folderMime) ∧
    (∀ f, f ∈ L ↔ ReachFile drive root f) := by
  have hspec := listLoop_spec drive fuel [root] [] L h (by intro f hf; cases hf)
  refine ⟨hspec.1, fun f => ?_⟩
  rw [hspec.2 f]
  constructor
  · rintro (hf | ⟨fid, hfid, hr⟩)
    · cases hf
    · have hfr : fid = root := by simpa using hfid
      subst hfr
      exact hr
  · intro hr
    exact Or.inr ⟨root, by simp, hr⟩

/-- Witness for C6 (amended): the reachability characterisation applied to
the concrete three-folder drive. -/
theorem C6_listing_amended_witness :
    (∀ f ∈ [(⟨3, ("root.txt"), ("text/plain")⟩ : GFile),
        ⟨5, ("b.txt"), ("text/plain")⟩, ⟨4, ("a.txt"), ("text/plain")⟩],
      ¬ f.mimeType = folderMime) ∧
    (∀ f, f ∈ [(⟨3, ("root.txt"), ("text/plain")⟩ : GFile),
        ⟨5, ("b.txt"), ("text/plain")⟩, ⟨4, ("a.txt"), ("text/plain")⟩] ↔
      ReachFile driveEx 0 f) :=
  C6_listing_amended driveEx 4 0
    [⟨3, ("root.txt"), ("text/plain")⟩, ⟨5, ("b.txt"), ("text/plain")⟩,
     ⟨4, ("a.txt"), ("text/plain")⟩] (by decide)

/-- Claim C7: the sync loop's trace over any file list splits at any point —
files after a failure are processed exactly as they would be alone, so no
per-file failure aborts the pass; every file contributes exactly one cleanup
attempt to the trace; each iteration ends with its own scratch-file unlink
attempt whatever its outcome; and a download or repository failure logs an
error inside that iteration. -/
theorem C7_sync_error_containment (xs ys : List (String × FileOutcome))
    (f : String × FileOutcome) :
    syncTrace (xs ++ ys) = syncTrace xs ++ syncTrace ys ∧
    (syncTrace xs).countP isUnlink = xs.length ∧
    (perFile f).getLast? = some (SyncEvent.unlinkAttempted f.1) ∧
    ((f.2 = FileOutcome.downloadFail ∨ f.2 = FileOutcome.repoFail) →
      SyncEvent.errorLogged f.1 ∈ perFile f) := by
  refine ⟨?_, ?_, ?_, ?_⟩
  · induction xs with
    | nil => rfl
    | cons x xs ih =>
      rw [List.cons_append, syncTrace, syncTrace, ih, List.append_assoc]
  · induction xs with
    | nil => rfl
    | cons x xs ih =>
      obtain ⟨n, o⟩ := x
      have hone : (perFile (n, o)).countP isUnlink = 1 := by
        cases o <;> rfl
      rw [syncTrace, List.countP_append, ih, hone, List.length_cons,
        Nat.add_comm]
  · obtain ⟨n, o⟩ := f
    cases o <;> rfl
  · obtain ⟨n, o⟩ := f
    intro h
    rcases h with h | h
    · have h2 : o = FileOutcome.downloadFail := h
      subst h2
      simp [perFile]
    · have h2 : o = FileOutcome.repoFail := h
      subst h2
      simp [perFile]

/-- Witness for C7: the loop over a failing `a.xlsx` followed by a
successful `b.xlsx` — the trace splits, the failing iteration logs its
error, and cleanup is attempted once per file. -/
theorem C7_sync_error_containment_witness :
    (syncTrace [(("a.xlsx"), FileOutcome.downloadFail), (("b.xlsx"), FileOutcome.ok)] =
      syncTrace [(("a.xlsx"), FileOutcome.downloadFail)] ++
        syncTrace [(("b.xlsx"), FileOutcome.ok)]) ∧
    (syncTrace [(("a.xlsx"), FileOutcome.downloadFail)]).countP isUnlink = 1 ∧
    (perFile (("a.xlsx"), FileOutcome.downloadFail)).getLast? =
      some (SyncEvent.unlinkAttempted ("a.xlsx")) ∧
    SyncEvent.errorLogged ("a.xlsx") ∈ perFile (("a.xlsx"), FileOutcome.downloadFail) := by
  have h := C7_sync_error_containment [(("a.xlsx"), FileOutcome.downloadFail)]
    [(("b.xlsx"), FileOutcome.ok)] (("a.xlsx"), FileOutcome.downloadFail)
  exact ⟨h.1, h.2.1, h.2.2.1, h.2.2.2 (Or.inl rfl)⟩

end IsoDoc
